import Mathlib

/-!
Verification of the TSP hill-climbing repository (code_and_data/tsp.py and
code_and_data/tsp_hcs.py).

The local-search engine (`route_length`, `get_neighbors`, `get_best_neighbor`,
the hill-climbing loops and the random-search baseline) is embedded over exact
rationals: the Python floats are idealized as `ℚ` so that every definition is
executable and every comparison decidable.  A distance table is modeled as a
total function `ℕ → ℕ → ℚ` (a NumPy `N×N` array read at indices `city - 1`).
Fallible operations (Python expressions that can raise) return
`Except String`, the error string naming the Python exception class raised at
that point (`IndexError` for an out-of-range list subscript, `ValueError` for
a failed `int()`/`float()` conversion).

The geometry component (`euclidean_distance`, `distance_matrix`), which in the
source computes square roots, is embedded separately over `ℝ`.

Randomness (`random.shuffle` inside `random_solution`) is modeled by an
explicit stream of draws `draws : ℕ → List ℕ`: `draws t` is the tour returned
by the `t`-th call to `random_solution`.  `random_solution` on an `N`-city
instance shuffles `list(range(1, N + 1))`, so each draw is a permutation of
`baseTour N` below.
-/

/-- The list `[1, 2, ..., N]`: the identity tour that `random_solution`
shuffles (`list(range(1, len(nodes_list) + 1))` in both source files). -/
def baseTour (N : ℕ) : List ℕ :=
  List.range' 1 N

/-- One swap-move of `get_neighbors` (both source files, identical code):
`neighbor = current_solution.copy(); neighbor[i], neighbor[j] = neighbor[j],
neighbor[i]`.  The tuple assignment reads both old values first, so position
`i` receives the old `l[j]` and position `j` the old `l[i]`. -/
def swapPos (l : List ℕ) (i j : ℕ) : List ℕ :=
  (l.set i (l.getD j 0)).set j (l.getD i 0)

/-- `get_neighbors` (tsp.py lines 56-63, tsp_hcs.py lines 66-73, identical):
`for i in range(len(cur)): for j in range(i+1, len(cur)): append(swap i j)`.
The nested loops with `append` are the list bind/map below, in the same
(lexicographic) order. -/
def get_neighbors (cur : List ℕ) : List (List ℕ) :=
  (List.range cur.length).flatMap fun i =>
    (List.range' (i + 1) (cur.length - (i + 1))).map fun j => swapPos cur i j

/-- `route_length` (tsp.py lines 48-53, tsp_hcs.py lines 56-61, identical):
sums `d[sol[i]-1][sol[j+1]-1]` over `i in range(len(sol)-1)` and then adds the
wrap-around edge `d[sol[-1]-1][sol[0]-1]`.  On the empty list the loop body
never runs and `sol[-1]` raises `IndexError`. -/
def route_length (sol : List ℕ) (d : ℕ → ℕ → ℚ) : Except String ℚ :=
  match sol with
  | [] => .error ("IndexError")
  | _ :: _ =>
    .ok ((List.range (sol.length - 1)).foldl
          (fun acc i => acc + d (sol.getD i 0 - 1) (sol.getD (i + 1) 0 - 1)) 0
        + d (sol.getLastD 0 - 1) (sol.getD 0 0 - 1))

/-- The `for neighbor in neighbors` loop of `get_best_neighbor`, folding the
running best `(best_neighbor, best_route_length)` over the neighbor list.
`current_route_length < best_route_length` keeps the earlier neighbor on
ties. -/
def gbn_go (d : ℕ → ℕ → ℚ) : List (List ℕ) → List ℕ × ℚ → Except String (List ℕ × ℚ)
  | [], acc => .ok acc
  | nb :: rest, acc =>
    match route_length nb d with
    | .error e => .error e
    | .ok cl => gbn_go d rest (if cl < acc.2 then (nb, cl) else acc)

/-- `get_best_neighbor` (tsp.py lines 66-74, tsp_hcs.py lines 78-86,
identical): starts from `neighbors[0]` — an `IndexError` when the neighbor
list is empty — and then scans the whole list (including `neighbors[0]`
again, which is harmless). -/
def get_best_neighbor (ns : List (List ℕ)) (d : ℕ → ℕ → ℚ) :
    Except String (List ℕ × ℚ) :=
  match ns with
  | [] => .error ("IndexError")
  | n0 :: _ =>
    match route_length n0 d with
    | .error e => .error e
    | .ok l0 => gbn_go d ns (n0, l0)

/-- Sum of the consecutive (non-wrap-around) edges of a tour, the closed
recursive form of the indexing loop inside `route_length`. -/
def edgeSum (d : ℕ → ℕ → ℚ) : List ℕ → ℚ
  | [] => 0
  | [_] => 0
  | a :: b :: rest => d (a - 1) (b - 1) + edgeSum d (b :: rest)

section BasicLemmas

theorem route_length_nil (d : ℕ → ℕ → ℚ) :
    route_length [] d = .error ("IndexError") := rfl

theorem foldl_add_shift (g : ℕ → ℚ) (L : List ℕ) (c : ℚ) :
    L.foldl (fun acc i => acc + g i) c = c + L.foldl (fun acc i => acc + g i) 0 := by
  induction L generalizing c with
  | nil => simp
  | cons x xs ih =>
    simp only [List.foldl_cons]
    rw [ih (c + g x), ih (0 + g x)]
    ring

theorem range_foldl_eq_edgeSum (d : ℕ → ℕ → ℚ) (sol : List ℕ) :
    (List.range (sol.length - 1)).foldl
        (fun acc i => acc + d (sol.getD i 0 - 1) (sol.getD (i + 1) 0 - 1)) 0
      = edgeSum d sol := by
  induction sol with
  | nil => simp [edgeSum]
  | cons a t ih =>
    cases t with
    | nil => simp [edgeSum]
    | cons b t' =>
      have hlen : (a :: b :: t').length - 1 = (b :: t').length := by simp
      rw [hlen]
      have hr : List.range (b :: t').length
          = 0 :: (List.range ((b :: t').length - 1)).map Nat.succ := by
        cases h : (b :: t').length with
        | zero => simp at h
        | succ n => simp [List.range_succ_eq_map]
      rw [hr]
      simp only [List.foldl_cons, List.foldl_map]
      have hstep : ∀ i : ℕ,
          (a :: b :: t').getD (Nat.succ i) 0 = (b :: t').getD i 0 := by
        intro i; rfl
      have hbody : ((List.range ((b :: t').length - 1)).foldl
            (fun acc i => acc + d ((a :: b :: t').getD (Nat.succ i) 0 - 1)
              ((a :: b :: t').getD (Nat.succ i + 1) 0 - 1))
            (0 + d ((a :: b :: t').getD 0 0 - 1) ((a :: b :: t').getD 1 0 - 1)))
          = (List.range ((b :: t').length - 1)).foldl
            (fun acc i => acc + d ((b :: t').getD i 0 - 1) ((b :: t').getD (i + 1) 0 - 1))
            (0 + d (a - 1) (b - 1)) := by
        rfl
      rw [hbody, foldl_add_shift, ih]
      simp [edgeSum]

theorem swapPos_length (l : List ℕ) (i j : ℕ) :
    (swapPos l i j).length = l.length := by
  simp [swapPos]

theorem swapPos_getD (l : List ℕ) {i j : ℕ} (hij : i ≠ j) (hi : i < l.length)
    (hj : j < l.length) (k : ℕ) :
    (swapPos l i j).getD k 0 =
      if k = j then l.getD i 0 else if k = i then l.getD j 0 else l.getD k 0 := by
  rw [swapPos, List.getD_eq_getElem?_getD]
  by_cases hkj : k = j
  · subst hkj
    rw [List.getElem?_set_self (by simpa using hj)]
    simp
  · rw [List.getElem?_set_ne (fun h => hkj h.symm)]
    by_cases hki : k = i
    · subst hki
      rw [List.getElem?_set_self hi]
      simp [hkj]
    · rw [List.getElem?_set_ne (fun h => hki h.symm)]
      simp [hkj, hki, List.getD_eq_getElem?_getD]

theorem getD_cons_head_perm (t : List ℕ) :
    ∀ (m : ℕ) (a : ℕ), m < t.length → (t.getD m 0 :: t.set m a).Perm (a :: t) := by
  induction t with
  | nil => intro m a h; simp at h
  | cons b t' ih =>
    intro m a h
    cases m with
    | zero => simpa using List.Perm.swap a b t'
    | succ m' =>
      have h' : m' < t'.length := by simpa using h
      have step1 : ((b :: t').getD (m' + 1) 0 :: (b :: t').set (m' + 1) a).Perm
          (b :: t'.getD m' 0 :: t'.set m' a) := List.Perm.swap b (t'.getD m' 0) _
      exact step1.trans (((ih m' a h').cons b).trans (List.Perm.swap a b t'))

theorem swapPos_perm : ∀ (i : ℕ) (l : List ℕ) (j : ℕ), i < j → j < l.length →
    (swapPos l i j).Perm l := by
  intro i
  induction i with
  | zero =>
    intro l j hij hj
    match l, j with
    | a :: t, Nat.succ j' =>
      have hj' : j' < t.length := by simpa using hj
      have hs : swapPos (a :: t) 0 (j' + 1) = t.getD j' 0 :: t.set j' a := by
        simp [swapPos, List.set_cons_succ]
      rw [hs]
      exact getD_cons_head_perm t j' a hj'
  | succ i' ih =>
    intro l j hij hj
    match l, j with
    | a :: t, Nat.succ j' =>
      have hs : swapPos (a :: t) (i' + 1) (j' + 1) = a :: swapPos t i' j' := rfl
      rw [hs]
      exact (ih t j' (by omega) (by simpa using hj)).cons a

theorem swapPos_ne (l : List ℕ) {i j : ℕ} (hnd : l.Nodup) (hij : i < j)
    (hj : j < l.length) : swapPos l i j ≠ l := by
  intro heq
  have hi : i < l.length := lt_trans hij hj
  have h1 : (swapPos l i j).getD i 0 = l.getD i 0 := by rw [heq]
  rw [swapPos_getD l (Nat.ne_of_lt hij) hi hj i] at h1
  rw [if_neg (Nat.ne_of_lt hij), if_pos rfl] at h1
  rw [List.getD_eq_getElem l 0 hj, List.getD_eq_getElem l 0 hi] at h1
  exact absurd ((hnd.getElem_inj_iff).mp h1) (Nat.ne_of_gt hij)

theorem swapPos_inj (l : List ℕ) {i j i' j' : ℕ} (hnd : l.Nodup) (h1 : i < j)
    (h2 : j < l.length) (h3 : i' < j') (h4 : j' < l.length)
    (heq : swapPos l i j = swapPos l i' j') : i = i' ∧ j = j' := by
  have hi : i < l.length := lt_trans h1 h2
  have hi' : i' < l.length := lt_trans h3 h4
  have inj : ∀ a b : ℕ, a < l.length → b < l.length →
      l.getD a 0 = l.getD b 0 → a = b := by
    intro a b ha hb hab
    rw [List.getD_eq_getElem l 0 ha, List.getD_eq_getElem l 0 hb] at hab
    exact (hnd.getElem_inj_iff).mp hab
  have key : (swapPos l i j).getD i 0 = (swapPos l i' j').getD i 0 := by rw [heq]
  rw [swapPos_getD l (Nat.ne_of_lt h1) hi h2 i,
      swapPos_getD l (Nat.ne_of_lt h3) hi' h4 i] at key
  rw [if_neg (Nat.ne_of_lt h1), if_pos rfl] at key
  by_cases hij' : i = j'
  · exfalso
    rw [if_pos hij'] at key
    have : j = i' := inj j i' h2 hi' key
    omega
  · rw [if_neg hij'] at key
    by_cases hii' : i = i'
    · rw [if_pos hii'] at key
      exact ⟨hii', inj j j' h2 h4 key⟩
    · exfalso
      rw [if_neg hii'] at key
      have : j = i := inj j i h2 hi key
      omega

theorem mem_get_neighbors_iff (cur : List ℕ) (nb : List ℕ) :
    nb ∈ get_neighbors cur ↔
      ∃ i j, i < j ∧ j < cur.length ∧ nb = swapPos cur i j := by
  simp only [get_neighbors, List.mem_flatMap, List.mem_map, List.mem_range,
    List.mem_range'_1]
  constructor
  · rintro ⟨i, hi, j, ⟨hj1, hj2⟩, rfl⟩
    exact ⟨i, j, by omega, by omega, rfl⟩
  · rintro ⟨i, j, hij, hj, rfl⟩
    exact ⟨i, by omega, j, ⟨by omega, by omega⟩, rfl⟩

theorem mem_get_neighbors_length {cur nb : List ℕ} (h : nb ∈ get_neighbors cur) :
    nb.length = cur.length := by
  obtain ⟨i, j, _, _, rfl⟩ := (mem_get_neighbors_iff cur nb).mp h
  exact swapPos_length cur i j

theorem mem_get_neighbors_perm {cur nb : List ℕ} (h : nb ∈ get_neighbors cur) :
    nb.Perm cur := by
  obtain ⟨i, j, hij, hj, rfl⟩ := (mem_get_neighbors_iff cur nb).mp h
  exact swapPos_perm i cur j hij hj

theorem get_neighbors_ne_nil {cur : List ℕ} (h2 : 2 ≤ cur.length) :
    get_neighbors cur ≠ [] := by
  have : swapPos cur 0 1 ∈ get_neighbors cur :=
    (mem_get_neighbors_iff cur _).mpr ⟨0, 1, by omega, by omega, rfl⟩
  intro hnil
  rw [hnil] at this
  exact absurd this (List.not_mem_nil _)

theorem list_range_map_sum (f : ℕ → ℕ) (n : ℕ) :
    ((List.range n).map f).sum = ∑ i ∈ Finset.range n, f i := by
  induction n with
  | zero => simp
  | succ m ih => rw [List.range_succ, Finset.sum_range_succ]; simp [ih]

theorem get_neighbors_length (cur : List ℕ) :
    (get_neighbors cur).length = cur.length * (cur.length - 1) / 2 := by
  rw [get_neighbors, List.length_flatMap]
  have hmap : (List.map (List.length ∘ fun i =>
        (List.range' (i + 1) (cur.length - (i + 1))).map fun j => swapPos cur i j)
        (List.range cur.length))
      = (List.range cur.length).map (fun i => cur.length - 1 - i) := by
    apply List.map_congr_left
    intro i hi
    simp only [Function.comp_apply, List.length_map, List.length_range']
    omega
  rw [hmap, list_range_map_sum, Finset.sum_range_reflect (fun i => i) cur.length]
  exact Finset.sum_range_id cur.length

theorem get_neighbors_nodup {cur : List ℕ} (hnd : cur.Nodup) :
    (get_neighbors cur).Nodup := by
  rw [get_neighbors, List.nodup_flatMap]
  constructor
  · intro i hi
    rw [List.mem_range] at hi
    apply List.Nodup.map_on
    · intro x hx y hy hxy
      rw [List.mem_range'_1] at hx hy
      exact ((swapPos_inj cur hnd (by omega) (by omega) (by omega) (by omega)) hxy).2
    · exact List.nodup_range' _ _
  · apply List.Pairwise.imp _ (List.pairwise_lt_range cur.length)
    intro a b hab nb hnba hnbb
    rw [List.mem_map] at hnba hnbb
    obtain ⟨x, hx, rfl⟩ := hnba
    obtain ⟨y, hy, hxy⟩ := hnbb
    rw [List.mem_range'_1] at hx hy
    have := (@swapPos_inj cur b y a x hnd
      (by omega) (by omega) (by omega) (by omega) hxy).1
    omega

theorem self_not_mem_get_neighbors {cur : List ℕ} (hnd : cur.Nodup) :
    cur ∉ get_neighbors cur := by
  intro h
  obtain ⟨i, j, hij, hj, heq⟩ := (mem_get_neighbors_iff cur cur).mp h
  exact swapPos_ne cur hnd hij hj heq.symm

theorem get_neighbors_singleton (a : ℕ) : get_neighbors [a] = [] := rfl

theorem route_length_cons (d : ℕ → ℕ → ℚ) (a : ℕ) (t : List ℕ) :
    route_length (a :: t) d
      = .ok (edgeSum d (a :: t) + d ((a :: t).getLastD 0 - 1) (a - 1)) := by
  rw [show route_length (a :: t) d
      = .ok ((List.range ((a :: t).length - 1)).foldl
          (fun acc i => acc + d ((a :: t).getD i 0 - 1) ((a :: t).getD (i + 1) 0 - 1)) 0
        + d ((a :: t).getLastD 0 - 1) ((a :: t).getD 0 0 - 1)) from rfl]
  rw [range_foldl_eq_edgeSum]
  rfl

theorem route_length_ok {sol : List ℕ} (d : ℕ → ℕ → ℚ) (h : sol ≠ []) :
    ∃ q, route_length sol d = .ok q := by
  cases sol with
  | nil => exact absurd rfl h
  | cons a t => exact ⟨_, route_length_cons d a t⟩

theorem gbn_go_ok (d : ℕ → ℕ → ℚ) :
    ∀ (rest : List (List ℕ)), (∀ nb ∈ rest, nb ≠ []) →
      ∀ acc, ∃ res, gbn_go d rest acc = .ok res := by
  intro rest
  induction rest with
  | nil => intro _ acc; exact ⟨acc, rfl⟩
  | cons nb rest' ih =>
    intro hall acc
    obtain ⟨q, hq⟩ := route_length_ok d (hall nb (List.mem_cons_self nb rest'))
    obtain ⟨res, hres⟩ := ih (fun x hx => hall x (List.mem_cons_of_mem nb hx))
      (if q < acc.2 then (nb, q) else acc)
    exact ⟨res, by rw [gbn_go, hq]; exact hres⟩

theorem gbn_go_spec (d : ℕ → ℕ → ℚ) :
    ∀ (rest : List (List ℕ)) (acc res : List ℕ × ℚ),
      gbn_go d rest acc = .ok res → route_length acc.1 d = .ok acc.2 →
      (res = acc ∨ res.1 ∈ rest) ∧ route_length res.1 d = .ok res.2 := by
  intro rest
  induction rest with
  | nil =>
    intro acc res h hacc
    rw [gbn_go] at h
    cases h
    exact ⟨Or.inl rfl, hacc⟩
  | cons nb rest' ih =>
    intro acc res h hacc
    rw [gbn_go] at h
    cases hq : route_length nb d with
    | error e => rw [hq] at h; cases h
    | ok cl =>
      rw [hq] at h
      have hacc' : route_length (if cl < acc.2 then (nb, cl) else acc).1 d
          = .ok (if cl < acc.2 then (nb, cl) else acc).2 := by
        by_cases hlt : cl < acc.2
        · simp only [if_pos hlt]; exact hq
        · simp only [if_neg hlt]; exact hacc
      obtain ⟨hmem, hrl⟩ := ih _ res h hacc'
      refine ⟨?_, hrl⟩
      rcases hmem with heq | hmem'
      · rw [heq]
        by_cases hlt : cl < acc.2
        · rw [if_pos hlt]; exact Or.inr (List.mem_cons_self nb rest')
        · rw [if_neg hlt]; exact Or.inl rfl
      · exact Or.inr (List.mem_cons_of_mem nb hmem')

theorem get_best_neighbor_spec {ns : List (List ℕ)} {d : ℕ → ℕ → ℚ}
    {bn : List ℕ} {bl : ℚ} (h : get_best_neighbor ns d = .ok (bn, bl)) :
    bn ∈ ns ∧ route_length bn d = .ok bl := by
  cases ns with
  | nil => rw [get_best_neighbor] at h; cases h
  | cons n0 rest =>
    rw [get_best_neighbor] at h
    cases hq : route_length n0 d with
    | error e => rw [hq] at h; cases h
    | ok l0 =>
      rw [hq] at h
      obtain ⟨hmem, hrl⟩ := gbn_go_spec d (n0 :: rest) (n0, l0) (bn, bl) h hq
      refine ⟨?_, hrl⟩
      rcases hmem with heq | hmem'
      · rw [show bn = n0 from congrArg Prod.fst heq]
        exact List.mem_cons_self n0 rest
      · exact hmem'

theorem get_best_neighbor_ok {ns : List (List ℕ)} (d : ℕ → ℕ → ℚ)
    (hne : ns ≠ []) (hall : ∀ nb ∈ ns, nb ≠ []) :
    ∃ bn bl, get_best_neighbor ns d = .ok (bn, bl) := by
  cases ns with
  | nil => exact absurd rfl hne
  | cons n0 rest =>
    obtain ⟨l0, hl0⟩ := route_length_ok d (hall n0 (List.mem_cons_self n0 rest))
    obtain ⟨res, hres⟩ := gbn_go_ok d (n0 :: rest) hall (n0, l0)
    exact ⟨res.1, res.2, by rw [get_best_neighbor, hl0]; exact hres⟩

theorem edgeSum_append_singleton (d : ℕ → ℕ → ℚ) :
    ∀ (xs : List ℕ) (a : ℕ), xs ≠ [] →
      edgeSum d (xs ++ [a]) = edgeSum d xs + d (xs.getLastD 0 - 1) (a - 1) := by
  intro xs
  induction xs with
  | nil => intro a h; exact absurd rfl h
  | cons x xs' ih =>
    intro a _
    cases xs' with
    | nil => simp [edgeSum]
    | cons y ys =>
      have hne : (y :: ys) ≠ [] := by simp
      have h1 : edgeSum d ((x :: y :: ys) ++ [a])
          = d (x - 1) (y - 1) + edgeSum d ((y :: ys) ++ [a]) := rfl
      rw [h1, ih a hne]
      have h2 : edgeSum d (x :: y :: ys) = d (x - 1) (y - 1) + edgeSum d (y :: ys) := rfl
      rw [h2]
      have h3 : (x :: y :: ys).getLastD 0 = (y :: ys).getLastD 0 := rfl
      rw [h3]
      ring

theorem edgeSum_reverse (d : ℕ → ℕ → ℚ) (hsym : ∀ a b, d a b = d b a) :
    ∀ (l : List ℕ), edgeSum d l.reverse = edgeSum d l := by
  intro l
  induction l with
  | nil => rfl
  | cons a t ih =>
    cases t with
    | nil => rfl
    | cons b t' =>
      have hrev : (a :: b :: t').reverse = (b :: t').reverse ++ [a] := by
        simp
      rw [hrev, edgeSum_append_singleton d _ a (by simp),
        ih]
      have hlast : ((b :: t').reverse).getLastD 0 = b := by
        rw [List.getLastD_eq_getLast?, List.getLast?_reverse]
        rfl
      rw [hlast]
      have h2 : edgeSum d (a :: b :: t') = d (a - 1) (b - 1) + edgeSum d (b :: t') := rfl
      rw [h2, hsym (b - 1) (a - 1)]
      ring

end BasicLemmas

/-- The finite set of permutations of a fixed list, used as the termination
measure of the steepest-descent loop: each accepted move strictly decreases
the current route length over this finite set. -/
def permsOf (base : List ℕ) : Finset (List ℕ) :=
  base.permutations.toFinset

/-- The rational value of a successful `route_length` call (0 on the
unreachable error case); only used in termination measures. -/
def rlVal (d : ℕ → ℕ → ℚ) (l : List ℕ) : ℚ :=
  match route_length l d with
  | .ok q => q
  | .error _ => 0

theorem rlVal_of_ok {d : ℕ → ℕ → ℚ} {l : List ℕ} {q : ℚ}
    (h : route_length l d = .ok q) : rlVal d l = q := by
  rw [rlVal, h]

namespace tsp

/-- The `while flag:` loop inside `hill_climbing` of tsp.py (lines 96-107):
starting from a current solution and its length, repeatedly recompute the
best neighbor; while it is strictly shorter, adopt it and reset the
no-improvement counter to 0; on exit increment the counter.  The current
solution is carried together with a proof that it stays a permutation of the
tour it started from (swap moves permute), which makes the strict decrease of
the route length a well-founded measure.  An `IndexError` raised by
`get_best_neighbor` (empty neighbor list) propagates. -/
def climb (d : ℕ → ℕ → ℚ) (base : List ℕ) (cur : {l : List ℕ // l.Perm base})
    (cur_len : ℚ) (nic : ℕ) :
    Except String ({l : List ℕ // l.Perm base} × ℚ × ℕ) :=
  match h : get_best_neighbor (get_neighbors cur.val) d with
  | .error e => .error e
  | .ok (bn, bl) =>
    if hlt : bl < cur_len then
      climb d base ⟨bn, (mem_get_neighbors_perm (get_best_neighbor_spec h).1).trans cur.2⟩
        bl 0
    else
      .ok (cur, cur_len, nic + 1)
termination_by ((permsOf base).filter (fun p => rlVal d p < cur_len)).card
decreasing_by
  apply Finset.card_lt_card
  have hbn := get_best_neighbor_spec h
  have hperm : bn.Perm base := (mem_get_neighbors_perm hbn.1).trans cur.2
  have hbnval : rlVal d bn = bl := rlVal_of_ok hbn.2
  rw [Finset.ssubset_def]
  constructor
  · intro p hp
    rw [Finset.mem_filter] at hp ⊢
    exact ⟨hp.1, lt_trans hp.2 hlt⟩
  · intro hsub
    have hmem : bn ∈ (permsOf base).filter (fun p => rlVal d p < cur_len) := by
      rw [Finset.mem_filter]
      refine ⟨?_, by rw [hbnval]; exact hlt⟩
      rw [permsOf, List.mem_toFinset, List.mem_permutations]
      exact hperm
    have hbad := hsub hmem
    rw [Finset.mem_filter, hbnval] at hbad
    exact absurd hbad.2 (lt_irrefl bl)

/-- Per-iteration state of `hill_climbing` in tsp.py: the best solution and
length found so far (`None` / `float('inf')` modeled as `Option` / `⊤`), the
trajectory of best lengths, and the no-improvement counter. -/
structure TspState where
  best : Option (List ℕ)
  best_len : WithTop ℚ
  traj : List (WithTop ℚ)
  nic : ℕ

/-- One iteration of the `for _ in range(iterations)` loop of tsp.py's
`hill_climbing` (lines 84-113).  Both branches of
`if no_improvement_count >= restart_threshold` execute the same code — draw a
fresh random tour and compute its length — and differ only in resetting the
counter to 0, so the branch is modeled by the reset alone.  Then the inner
while loop (`climb`) runs, the best-so-far is updated if the final current
length improves on it, and the best-so-far length is appended to the
trajectory. -/
def tsp_iter (d : ℕ → ℕ → ℚ) (draws : ℕ → List ℕ) (restart_threshold : ℕ)
    (t : ℕ) (s : TspState) : Except String TspState :=
  let nic0 := if s.nic ≥ restart_threshold then 0 else s.nic
  let cur := draws t
  match route_length cur d with
  | .error e => .error e
  | .ok cl =>
    match climb d cur ⟨cur, List.Perm.refl cur⟩ cl nic0 with
    | .error e => .error e
    | .ok (cur', cl', nic') =>
      let best_len' := if (cl' : WithTop ℚ) < s.best_len then ((cl' : ℚ) : WithTop ℚ)
        else s.best_len
      let best' := if (cl' : WithTop ℚ) < s.best_len then some cur'.val else s.best
      .ok ⟨best', best_len', s.traj ++ [best_len'], nic'⟩

/-- The `for _ in range(iterations)` loop of tsp.py's `hill_climbing`,
iterating `tsp_iter` over the iteration indices (each iteration consumes one
`random_solution` draw, namely `draws t`). -/
def tsp_loop (d : ℕ → ℕ → ℚ) (draws : ℕ → List ℕ) (restart_threshold : ℕ) :
    List ℕ → TspState → Except String TspState
  | [], s => .ok s
  | t :: ts, s =>
    match tsp_iter d draws restart_threshold t s with
    | .error e => .error e
    | .ok s' => tsp_loop d draws restart_threshold ts s'

/-- `hill_climbing` of tsp.py (lines 77-115): runs `iterations` outer steps
and returns `(best_solution, best_route_length, best_route_lengths)`. -/
def hill_climbing (d : ℕ → ℕ → ℚ) (draws : ℕ → List ℕ)
    (iterations restart_threshold : ℕ) :
    Except String (Option (List ℕ) × WithTop ℚ × List (WithTop ℚ)) :=
  match tsp_loop d draws restart_threshold (List.range iterations) ⟨none, ⊤, [], 0⟩ with
  | .error e => .error e
  | .ok s => .ok (s.best, s.best_len, s.traj)

end tsp

namespace tsp_hcs

/-- Loop state of `hill_climbing` in tsp_hcs.py: best solution/length,
trajectory, no-improvement counter, the persistent current solution and its
length, and `ridx`, the number of `random_solution` calls made so far (the
index of the next draw in the stream). -/
structure HcsState where
  best : Option (List ℕ)
  best_len : WithTop ℚ
  traj : List (WithTop ℚ)
  nic : ℕ
  cur : List ℕ
  cur_len : ℚ
  ridx : ℕ

/-- One iteration of the `for _ in range(iterations)` loop of tsp_hcs.py's
`hill_climbing` (lines 100-120): compute the best neighbor of the current
solution (an `IndexError` if the neighbor list is empty); if strictly better,
adopt it and reset the counter, else increment the counter; update the
best-so-far if the current length improves on it; if the counter has reached
`restart_threshold`, replace the current solution by a fresh random draw and
reset the counter; finally append the best-so-far length to the
trajectory. -/
def step (d : ℕ → ℕ → ℚ) (draws : ℕ → List ℕ) (restart_threshold : ℕ)
    (s : HcsState) : Except String HcsState :=
  match get_best_neighbor (get_neighbors s.cur) d with
  | .error e => .error e
  | .ok (bn, bl) =>
    let cur1 := if bl < s.cur_len then bn else s.cur
    let cl1 := if bl < s.cur_len then bl else s.cur_len
    let nic1 := if bl < s.cur_len then 0 else s.nic + 1
    let best1 := if (cl1 : WithTop ℚ) < s.best_len then some cur1 else s.best
    let blen1 := if (cl1 : WithTop ℚ) < s.best_len then ((cl1 : ℚ) : WithTop ℚ)
      else s.best_len
    if nic1 ≥ restart_threshold then
      match route_length (draws s.ridx) d with
      | .error e => .error e
      | .ok ncl =>
        .ok ⟨best1, blen1, s.traj ++ [blen1], 0, draws s.ridx, ncl, s.ridx + 1⟩
    else
      .ok ⟨best1, blen1, s.traj ++ [blen1], nic1, cur1, cl1, s.ridx⟩

/-- The iteration loop of tsp_hcs.py's `hill_climbing`, running `step` a
given number of times. -/
def loop (d : ℕ → ℕ → ℚ) (draws : ℕ → List ℕ) (restart_threshold : ℕ) :
    ℕ → HcsState → Except String HcsState
  | 0, s => .ok s
  | Nat.succ k, s =>
    match step d draws restart_threshold s with
    | .error e => .error e
    | .ok s' => loop d draws restart_threshold k s'

/-- `hill_climbing` of tsp_hcs.py (lines 91-122): initializes the current
solution from the first random draw (`draws 0`), runs `iterations` steps, and
returns `(best_solution, best_route_length, best_route_lengths)`. -/
def hill_climbing (d : ℕ → ℕ → ℚ) (draws : ℕ → List ℕ)
    (iterations restart_threshold : ℕ) :
    Except String (Option (List ℕ) × WithTop ℚ × List (WithTop ℚ)) :=
  match route_length (draws 0) d with
  | .error e => .error e
  | .ok cl0 =>
    match loop d draws restart_threshold iterations ⟨none, ⊤, [], 0, draws 0, cl0, 1⟩ with
    | .error e => .error e
    | .ok s => .ok (s.best, s.best_len, s.traj)

end tsp_hcs

/-! File parsing (`read_tsp`, identical in tsp.py lines 8-25 and tsp_hcs.py
lines 10-27).  A file is modeled as its list of lines.  The Python dict
`city_list` is modeled as an association list with dict semantics. -/

/-- Python dict assignment `city_list[city_id] = (x, y)`: overwrite in place
when the key is present (keeping insertion order), append otherwise. -/
def dictInsert (m : List (ℤ × ℚ × ℚ)) (k : ℤ) (v : ℚ × ℚ) : List (ℤ × ℚ × ℚ) :=
  if m.any (fun p => p.1 = k) then
    m.map (fun p => if p.1 = k then (k, v) else p)
  else m ++ [(k, v)]

/-- Python `s.startswith(p)` on character lists. -/
def startsWithChars : List Char → List Char → Bool
  | _, [] => true
  | [], _ :: _ => false
  | c :: cs, p :: ps => c = p && startsWithChars cs ps

/-- Python `s.strip()`: remove leading and trailing whitespace. -/
def pyStrip (s : List Char) : List Char :=
  ((s.dropWhile Char.isWhitespace).reverse.dropWhile Char.isWhitespace).reverse

/-- Splitting a character list at whitespace (including empty chunks, which
the caller filters out, matching Python `split()` with no argument). -/
def splitWsAux : List Char → List Char → List (List Char)
  | [], cur => [cur.reverse]
  | c :: cs, cur =>
    if c.isWhitespace then cur.reverse :: splitWsAux cs []
    else splitWsAux cs (c :: cur)

/-- Tokenization `line.strip().split()`: split on whitespace runs, dropping
empty tokens. -/
def pyTokens (line : String) : List (List Char) :=
  (splitWsAux (pyStrip line.data) []).filter (fun t => t ≠ [])

/-- Digit-string value: `some n` when the (non-empty) token is all decimal
digits. -/
def parseNatChars (s : List Char) : Option ℕ :=
  if s = [] then none
  else
    s.foldl
      (fun acc c =>
        match acc with
        | none => none
        | some a => if c.isDigit then some (a * 10 + (c.toNat - 48)) else none)
      (some 0)

/-- Model of Python `int(s)` on the decimal integer tokens occurring in TSP
files (optional leading minus, then digits); anything else is a
`ValueError`. -/
def parseIntChars (s : List Char) : Option ℤ :=
  match s with
  | '-' :: rest => (parseNatChars rest).map (fun n => -(n : ℤ))
  | _ => (parseNatChars s).map (fun n => (n : ℤ))

/-- Splitting a character list at every dot (keeping empty chunks). -/
def splitDotAux : List Char → List Char → List (List Char)
  | [], cur => [cur.reverse]
  | c :: cs, cur =>
    if c = '.' then cur.reverse :: splitDotAux cs []
    else splitDotAux cs (c :: cur)

/-- Model of Python `float(s)` on the plain decimal literals occurring in TSP
coordinate files (optional leading minus, digits, optionally a dot and
digits): the exact rational value, or `none` (a `ValueError`) when the token
is not such a literal. -/
def parseFloatChars (s : List Char) : Option ℚ :=
  let t := match s with
    | '-' :: rest => rest
    | _ => s
  let mag : Option ℚ :=
    match splitDotAux t [] with
    | [a] => (parseNatChars a).map (fun n => (n : ℚ))
    | [a, b] =>
      match parseNatChars a, parseNatChars b with
      | some n, some f => some ((n : ℚ) + (f : ℚ) / 10 ^ b.length)
      | _, _ => none
    | _ => none
  match s with
  | '-' :: _ => mag.map (fun q => -q)
  | _ => mag

/-- One coordinate line inside the section: `temp = line.strip().split();
city_id = int(temp[0]); x = float(temp[1]); y = float(temp[2])`.  A missing
token raises `IndexError`, a failed conversion `ValueError`, in the source's
evaluation order. -/
def parseCityLine (line : String) : Except String (ℤ × ℚ × ℚ) :=
  match (pyTokens line).get? 0 with
  | none => .error ("IndexError")
  | some t0 =>
    match parseIntChars t0 with
    | none => .error ("ValueError")
    | some cid =>
      match (pyTokens line).get? 1 with
      | none => .error ("IndexError")
      | some t1 =>
        match parseFloatChars t1 with
        | none => .error ("ValueError")
        | some x =>
          match (pyTokens line).get? 2 with
          | none => .error ("IndexError")
          | some t2 =>
            match parseFloatChars t2 with
            | none => .error ("ValueError")
            | some y => .ok (cid, x, y)

/-- The line loop of `read_tsp`: a `NODE_COORD_SECTION` line sets the flag
and is skipped; an `EOF` line breaks; other lines are parsed as coordinates
when the flag is set and ignored otherwise. -/
def read_tsp_go : List String → Bool → List (ℤ × ℚ × ℚ) →
    Except String (List (ℤ × ℚ × ℚ))
  | [], _, acc => .ok acc
  | line :: rest, flag, acc =>
    if startsWithChars line.data ("NODE_COORD_SECTION".data) then
      read_tsp_go rest true acc
    else if startsWithChars line.data ("EOF".data) then .ok acc
    else if flag then
      match parseCityLine line with
      | .error e => .error e
      | .ok (cid, x, y) => read_tsp_go rest flag (dictInsert acc cid (x, y))
    else read_tsp_go rest flag acc

/-- `read_tsp` (tsp.py lines 8-25, tsp_hcs.py lines 10-27, identical): reads
the city dictionary from the lines of the file, starting with the section
flag unset and the dictionary empty. -/
def read_tsp (lines : List String) : Except String (List (ℤ × ℚ × ℚ)) :=
  read_tsp_go lines false []

/-! Geometry (`euclidean_distance`, `distance_matrix`, tsp.py lines 28-39;
identical in tsp_hcs.py).  These compute square roots, so they are embedded
over `ℝ`; an `N x N` NumPy array is modeled as a list of `N` rows. -/

/-- `matrix[i][j] = v`. -/
def setEntry (m : List (List ℝ)) (i j : ℕ) (v : ℝ) : List (List ℝ) :=
  m.set i ((m.getD i []).set j v)

/-- `matrix[i][j]`. -/
def getEntry (m : List (List ℝ)) (i j : ℕ) : ℝ :=
  (m.getD i []).getD j 0

noncomputable section Geometry

/-- `euclidean_distance` (tsp.py lines 28-29):
`np.sqrt((n1[0]-n2[0])**2 + (n1[1]-n2[1])**2)`. -/
def euclidean_distance (n1 n2 : ℝ × ℝ) : ℝ :=
  Real.sqrt ((n1.1 - n2.1) ^ 2 + (n1.2 - n2.2) ^ 2)

/-- The body of the inner loop of `distance_matrix` (tsp.py lines 35-38):
`distance = euclidean_distance(coords_list[i], coords_list[j]);
matrix[i][j] = distance; matrix[j][i] = distance`, with the distance function
abstracted as `f`. -/
def innerStep (f : ℝ × ℝ → ℝ × ℝ → ℝ) (coords : List (ℝ × ℝ)) (i : ℕ)
    (m : List (List ℝ)) (j : ℕ) : List (List ℝ) :=
  let dist := f (coords.getD i (0, 0)) (coords.getD j (0, 0))
  setEntry (setEntry m i j dist) j i dist

/-- The inner loop `for j in range(i+1, len(coords_list))` of
`distance_matrix`. -/
def outerStep (f : ℝ × ℝ → ℝ × ℝ → ℝ) (coords : List (ℝ × ℝ))
    (m : List (List ℝ)) (i : ℕ) : List (List ℝ) :=
  (List.range' (i + 1) (coords.length - (i + 1))).foldl (innerStep f coords i) m

/-- The body of `distance_matrix` (tsp.py lines 32-39) with the distance
function as a parameter: starting from `np.zeros((n, n))`, `for i in
range(n): for j in range(i+1, n):` compute the distance once and write it at
both `(i, j)` and `(j, i)`.  Abstracting `f` makes the upper-triangle-only
evaluation pattern provable: the result depends on `f` only through its
values at index pairs `i < j`. -/
def distance_matrix_with (f : ℝ × ℝ → ℝ × ℝ → ℝ) (coords : List (ℝ × ℝ)) :
    List (List ℝ) :=
  (List.range coords.length).foldl (outerStep f coords)
    (List.replicate coords.length (List.replicate coords.length 0))

/-- `distance_matrix` (tsp.py lines 32-39, tsp_hcs.py lines 36-43,
identical): the pairwise Euclidean distance matrix of the coordinate list. -/
def distance_matrix (coords : List (ℝ × ℝ)) : List (List ℝ) :=
  distance_matrix_with euclidean_distance coords

end Geometry

/-! Theorems.  First the unfolding equations and specifications of the two
hill-climbing loops, then the claim theorems. -/

namespace tsp

theorem climb_eq_error {d : ℕ → ℕ → ℚ} {base : List ℕ}
    {cur : {l : List ℕ // l.Perm base}} {cur_len : ℚ} {nic : ℕ} {e : String}
    (hg : get_best_neighbor (get_neighbors cur.val) d = .error e) :
    climb d base cur cur_len nic = .error e := by
  rw [climb.eq_def]
  split
  · next e' heq => rw [hg] at heq; cases heq; rfl
  · next bn' bl' heq => rw [hg] at heq; cases heq

theorem climb_eq_improve {d : ℕ → ℕ → ℚ} {base : List ℕ}
    {cur : {l : List ℕ // l.Perm base}} {cur_len : ℚ} {nic : ℕ}
    {bn : List ℕ} {bl : ℚ}
    (hg : get_best_neighbor (get_neighbors cur.val) d = .ok (bn, bl))
    (hlt : bl < cur_len) (hperm : bn.Perm base) :
    climb d base cur cur_len nic = climb d base ⟨bn, hperm⟩ bl 0 := by
  rw [climb.eq_def]
  split
  · next e' heq => rw [hg] at heq; cases heq
  · next bn' bl' heq =>
    rw [hg] at heq
    injection heq with h
    injection h with hbn hbl
    subst hbn; subst hbl
    rw [dif_pos hlt]

theorem climb_eq_stay {d : ℕ → ℕ → ℚ} {base : List ℕ}
    {cur : {l : List ℕ // l.Perm base}} {cur_len : ℚ} {nic : ℕ}
    {bn : List ℕ} {bl : ℚ}
    (hg : get_best_neighbor (get_neighbors cur.val) d = .ok (bn, bl))
    (hnlt : ¬ bl < cur_len) :
    climb d base cur cur_len nic = .ok (cur, cur_len, nic + 1) := by
  rw [climb.eq_def]
  split
  · next e' heq => rw [hg] at heq; cases heq
  · next bn' bl' heq =>
    rw [hg] at heq
    injection heq with h
    injection h with hbn hbl
    subst hbn; subst hbl
    rw [dif_neg hnlt]

theorem climb_ok (d : ℕ → ℕ → ℚ) (base : List ℕ) (h2 : 2 ≤ base.length) :
    ∀ (cur : {l : List ℕ // l.Perm base}) (cur_len : ℚ) (nic : ℕ),
      ∃ res, climb d base cur cur_len nic = .ok res := by
  intro cur cur_len nic
  induction cur, cur_len, nic using climb.induct d base with
  | case1 cur cur_len nic e hg =>
    exfalso
    have hlen : cur.val.length = base.length := cur.2.length_eq
    have hne : get_neighbors cur.val ≠ [] := get_neighbors_ne_nil (by omega)
    have hall : ∀ nb ∈ get_neighbors cur.val, nb ≠ [] := by
      intro nb hnb hnil
      have hl := mem_get_neighbors_length hnb
      rw [hnil] at hl
      simp only [List.length_nil] at hl
      omega
    obtain ⟨bn, bl, hok⟩ := get_best_neighbor_ok d hne hall
    rw [hok] at hg; cases hg
  | case2 cur cur_len nic bn bl hg hlt ih =>
    obtain ⟨res, hres⟩ := ih
    have hperm : bn.Perm base :=
      (mem_get_neighbors_perm (get_best_neighbor_spec hg).1).trans cur.2
    exact ⟨res, by rw [climb_eq_improve hg hlt hperm]; exact hres⟩
  | case3 cur cur_len nic bn bl hg hnlt =>
    exact ⟨(cur, cur_len, nic + 1), climb_eq_stay hg hnlt⟩

/-- The current solution and its length produced by the inner while loop do
not depend on the incoming value of the no-improvement counter (the counter
is reset to 0 on the first accepted move, and the loop's exit merely
increments it). -/
theorem climb_nic_proj (d : ℕ → ℕ → ℚ) (base : List ℕ)
    (cur : {l : List ℕ // l.Perm base}) (cur_len : ℚ) (n1 n2 : ℕ) :
    (climb d base cur cur_len n1).map (fun r => (r.1, r.2.1))
      = (climb d base cur cur_len n2).map (fun r => (r.1, r.2.1)) := by
  cases hg : get_best_neighbor (get_neighbors cur.val) d with
  | error e => rw [climb_eq_error hg, climb_eq_error hg]
  | ok p =>
    obtain ⟨bn, bl⟩ := p
    by_cases hlt : bl < cur_len
    · have hperm : bn.Perm base :=
        (mem_get_neighbors_perm (get_best_neighbor_spec hg).1).trans cur.2
      rw [climb_eq_improve hg hlt hperm, climb_eq_improve hg hlt hperm]
    · rw [climb_eq_stay hg hlt, climb_eq_stay hg hlt]
      rfl

theorem tsp_iter_eval {d : ℕ → ℕ → ℚ} {draws : ℕ → List ℕ} {r t : ℕ}
    {s : TspState} {cl : ℚ} {cur' : {l : List ℕ // l.Perm (draws t)}}
    {cl' : ℚ} {nic' : ℕ}
    (hrl : route_length (draws t) d = .ok cl)
    (hclimb : climb d (draws t) ⟨draws t, List.Perm.refl (draws t)⟩ cl
        (if s.nic ≥ r then 0 else s.nic) = .ok (cur', cl', nic')) :
    tsp_iter d draws r t s = .ok
      ⟨if (cl' : WithTop ℚ) < s.best_len then some cur'.val else s.best,
       if (cl' : WithTop ℚ) < s.best_len then ((cl' : ℚ) : WithTop ℚ) else s.best_len,
       s.traj ++ [if (cl' : WithTop ℚ) < s.best_len then ((cl' : ℚ) : WithTop ℚ)
         else s.best_len],
       nic'⟩ := by
  simp only [tsp_iter, hrl, hclimb]

theorem tsp_loop_spec (d : ℕ → ℕ → ℚ) (draws : ℕ → List ℕ) (r N : ℕ)
    (hN : 2 ≤ N) (hdraws : ∀ t, (draws t).Perm (baseTour N)) :
    ∀ (ts : List ℕ) (s : TspState),
      (s.traj = [] ∨ s.traj.getLast? = some s.best_len) →
      s.traj.Chain' (fun a b => b ≤ a) →
      ∃ s', tsp_loop d draws r ts s = .ok s' ∧
        s'.traj.length = s.traj.length + ts.length ∧
        (s'.traj = [] ∨ s'.traj.getLast? = some s'.best_len) ∧
        s'.traj.Chain' (fun a b => b ≤ a) := by
  intro ts
  induction ts with
  | nil =>
    intro s h1 h2
    exact ⟨s, rfl, by simp, h1, h2⟩
  | cons t ts' ih =>
    intro s h1 h2
    have hlen : (draws t).length = N := by
      rw [(hdraws t).length_eq, baseTour, List.length_range']
    have hne : draws t ≠ [] := by
      intro h; rw [h] at hlen; simp only [List.length_nil] at hlen; omega
    obtain ⟨cl, hcl⟩ := route_length_ok d hne
    obtain ⟨⟨cur', cl', nic'⟩, hclimb⟩ :=
      climb_ok d (draws t) (by omega) ⟨draws t, List.Perm.refl (draws t)⟩ cl
        (if s.nic ≥ r then 0 else s.nic)
    have hiter := tsp_iter_eval (s := s) hcl hclimb
    have hble : (if (cl' : WithTop ℚ) < s.best_len then ((cl' : ℚ) : WithTop ℚ)
        else s.best_len) ≤ s.best_len := by
      by_cases hc : (cl' : WithTop ℚ) < s.best_len
      · rw [if_pos hc]; exact le_of_lt hc
      · rw [if_neg hc]
    obtain ⟨s', hloop, hlen', hlast', hchain'⟩ := ih
      ⟨if (cl' : WithTop ℚ) < s.best_len then some cur'.val else s.best,
       if (cl' : WithTop ℚ) < s.best_len then ((cl' : ℚ) : WithTop ℚ) else s.best_len,
       s.traj ++ [if (cl' : WithTop ℚ) < s.best_len then ((cl' : ℚ) : WithTop ℚ)
         else s.best_len],
       nic'⟩
      (Or.inr (List.getLast?_concat _))
      (by
        rw [List.chain'_append]
        refine ⟨h2, List.chain'_singleton _, ?_⟩
        intro x hx y hy
        rcases h1 with hemp | hlast
        · rw [hemp] at hx; cases hx
        · rw [hlast] at hx
          cases hx
          cases hy
          exact hble)
    refine ⟨s', ?_, ?_, hlast', hchain'⟩
    · rw [tsp_loop, hiter]
      exact hloop
    · simp only [List.length_append, List.length_cons, List.length_nil] at hlen' ⊢
      omega

theorem hill_climbing_spec (d : ℕ → ℕ → ℚ) (draws : ℕ → List ℕ) (N k r : ℕ)
    (hN : 2 ≤ N) (hdraws : ∀ t, (draws t).Perm (baseTour N)) :
    ∃ bs bl traj, hill_climbing d draws k r = .ok (bs, bl, traj) ∧
      traj.length = k ∧ traj.Chain' (fun a b => b ≤ a) ∧
      (k ≠ 0 → traj.getLast? = some bl) := by
  obtain ⟨s', hloop, hlen, hlast, hchain⟩ :=
    tsp_loop_spec d draws r N hN hdraws (List.range k) ⟨none, ⊤, [], 0⟩
      (Or.inl rfl) List.chain'_nil
  refine ⟨s'.best, s'.best_len, s'.traj, ?_, ?_, hchain, ?_⟩
  · rw [hill_climbing, hloop]
  · simpa using hlen
  · intro hk
    rcases hlast with hemp | hl
    · exfalso
      rw [hemp] at hlen
      simp only [List.length_nil, List.length_range] at hlen
      omega
    · exact hl

theorem except_map_eq_ok {α β : Type} {f : α → β} {x : Except String α} {v : β}
    (h : x.map f = .ok v) : ∃ u, x = .ok u ∧ f u = v := by
  cases x with
  | error e => simp only [Except.map] at h; cases h
  | ok u =>
    refine ⟨u, rfl, ?_⟩
    simp only [Except.map] at h
    cases h
    rfl

theorem except_map_eq_error {α β : Type} {f : α → β} {x : Except String α}
    {e : String} (h : x.map f = .error e) : x = .error e := by
  cases x with
  | error e' => simp only [Except.map] at h; cases h; rfl
  | ok u => simp only [Except.map] at h; cases h

theorem tsp_iter_threshold (d : ℕ → ℕ → ℚ) (draws : ℕ → List ℕ)
    (r1 r2 t : ℕ) (s1 s2 : TspState)
    (hb : s1.best = s2.best) (hl : s1.best_len = s2.best_len)
    (ht : s1.traj = s2.traj) :
    (tsp_iter d draws r1 t s1).map (fun u => (u.best, u.best_len, u.traj))
      = (tsp_iter d draws r2 t s2).map (fun u => (u.best, u.best_len, u.traj)) := by
  cases hrl : route_length (draws t) d with
  | error e => simp only [tsp_iter, hrl, Except.map]
  | ok cl =>
    have hproj := climb_nic_proj d (draws t) ⟨draws t, List.Perm.refl (draws t)⟩ cl
      (if s1.nic ≥ r1 then 0 else s1.nic) (if s2.nic ≥ r2 then 0 else s2.nic)
    cases hc1 : climb d (draws t) ⟨draws t, List.Perm.refl (draws t)⟩ cl
        (if s1.nic ≥ r1 then 0 else s1.nic) with
    | error e =>
      rw [hc1] at hproj
      have hc2 := except_map_eq_error hproj.symm
      simp only [tsp_iter, hrl, hc1, hc2, Except.map]
    | ok u1 =>
      rw [hc1] at hproj
      obtain ⟨u2, hc2, hu⟩ := except_map_eq_ok hproj.symm
      obtain ⟨cur1, cl1, nic1⟩ := u1
      obtain ⟨cur2, cl2, nic2⟩ := u2
      simp only at hu
      have hcur : cur2 = cur1 := congrArg Prod.fst hu
      have hcl : cl2 = cl1 := congrArg (fun p => p.2) hu
      subst hcur; subst hcl
      rw [tsp_iter_eval hrl hc1, tsp_iter_eval hrl hc2]
      simp only [Except.map, hb, hl, ht]

theorem tsp_loop_threshold (d : ℕ → ℕ → ℚ) (draws : ℕ → List ℕ) (r1 r2 : ℕ) :
    ∀ (ts : List ℕ) (s1 s2 : TspState),
      s1.best = s2.best → s1.best_len = s2.best_len → s1.traj = s2.traj →
      (tsp_loop d draws r1 ts s1).map (fun u => (u.best, u.best_len, u.traj))
        = (tsp_loop d draws r2 ts s2).map (fun u => (u.best, u.best_len, u.traj)) := by
  intro ts
  induction ts with
  | nil =>
    intro s1 s2 hb hl ht
    simp only [tsp_loop, Except.map, hb, hl, ht]
  | cons t ts' ih =>
    intro s1 s2 hb hl ht
    have hstep := tsp_iter_threshold d draws r1 r2 t s1 s2 hb hl ht
    cases h1 : tsp_iter d draws r1 t s1 with
    | error e =>
      rw [h1] at hstep
      have h2 := except_map_eq_error hstep.symm
      simp only [tsp_loop, h1, h2, Except.map]
    | ok u1 =>
      rw [h1] at hstep
      obtain ⟨u2, h2, hu⟩ := except_map_eq_ok hstep.symm
      simp only [tsp_loop, h1, h2]
      exact ih u1 u2 (congrArg (fun p => p.1) hu.symm)
        (congrArg (fun p => p.2.1) hu.symm) (congrArg (fun p => p.2.2) hu.symm)

theorem hill_climbing_eq_map (d : ℕ → ℕ → ℚ) (draws : ℕ → List ℕ) (k r : ℕ) :
    hill_climbing d draws k r
      = (tsp_loop d draws r (List.range k) ⟨none, ⊤, [], 0⟩).map
          (fun u => (u.best, u.best_len, u.traj)) := by
  cases h : tsp_loop d draws r (List.range k) ⟨none, ⊤, [], 0⟩ with
  | error e => simp only [hill_climbing, h, Except.map]
  | ok s => simp only [hill_climbing, h, Except.map]

end tsp

namespace tsp_hcs

theorem step_spec (d : ℕ → ℕ → ℚ) (draws : ℕ → List ℕ) (r N : ℕ)
    (hN : 2 ≤ N) (hdraws : ∀ t, (draws t).Perm (baseTour N))
    (s : HcsState) (hcur : s.cur.Perm (baseTour N)) :
    ∃ s', step d draws r s = .ok s' ∧
      s'.best_len ≤ s.best_len ∧
      s'.traj = s.traj ++ [s'.best_len] ∧
      s'.cur.Perm (baseTour N) := by
  have hlen : s.cur.length = N := by
    rw [hcur.length_eq, baseTour, List.length_range']
  have hne : get_neighbors s.cur ≠ [] := get_neighbors_ne_nil (by omega)
  have hall : ∀ nb ∈ get_neighbors s.cur, nb ≠ [] := by
    intro nb hnb hnil
    have hl := mem_get_neighbors_length hnb
    rw [hnil] at hl
    simp only [List.length_nil] at hl
    omega
  obtain ⟨bn, bl, hg⟩ := get_best_neighbor_ok d hne hall
  have hble : (if ((if bl < s.cur_len then bl else s.cur_len : ℚ) : WithTop ℚ) < s.best_len
      then (((if bl < s.cur_len then bl else s.cur_len : ℚ) : ℚ) : WithTop ℚ)
      else s.best_len) ≤ s.best_len := by
    by_cases hc : ((if bl < s.cur_len then bl else s.cur_len : ℚ) : WithTop ℚ) < s.best_len
    · rw [if_pos hc]; exact le_of_lt hc
    · rw [if_neg hc]
  by_cases hre : (if bl < s.cur_len then 0 else s.nic + 1) ≥ r
  · have hlend : (draws s.ridx).length = N := by
      rw [(hdraws s.ridx).length_eq, baseTour, List.length_range']
    have hned : draws s.ridx ≠ [] := by
      intro h; rw [h] at hlend; simp only [List.length_nil] at hlend; omega
    obtain ⟨ncl, hncl⟩ := route_length_ok d hned
    refine ⟨⟨if ((if bl < s.cur_len then bl else s.cur_len : ℚ) : WithTop ℚ) < s.best_len
        then some (if bl < s.cur_len then bn else s.cur) else s.best,
      if ((if bl < s.cur_len then bl else s.cur_len : ℚ) : WithTop ℚ) < s.best_len
        then (((if bl < s.cur_len then bl else s.cur_len : ℚ) : ℚ) : WithTop ℚ)
        else s.best_len,
      s.traj ++ [if ((if bl < s.cur_len then bl else s.cur_len : ℚ) : WithTop ℚ) < s.best_len
        then (((if bl < s.cur_len then bl else s.cur_len : ℚ) : ℚ) : WithTop ℚ)
        else s.best_len],
      0, draws s.ridx, ncl, s.ridx + 1⟩, ?_, hble, rfl, hdraws s.ridx⟩
    simp only [step, hg, if_pos hre, hncl]
  · have hperm1 : (if bl < s.cur_len then bn else s.cur).Perm (baseTour N) := by
      by_cases hlt : bl < s.cur_len
      · rw [if_pos hlt]
        exact (mem_get_neighbors_perm (get_best_neighbor_spec hg).1).trans hcur
      · rw [if_neg hlt]; exact hcur
    refine ⟨⟨if ((if bl < s.cur_len then bl else s.cur_len : ℚ) : WithTop ℚ) < s.best_len
        then some (if bl < s.cur_len then bn else s.cur) else s.best,
      if ((if bl < s.cur_len then bl else s.cur_len : ℚ) : WithTop ℚ) < s.best_len
        then (((if bl < s.cur_len then bl else s.cur_len : ℚ) : ℚ) : WithTop ℚ)
        else s.best_len,
      s.traj ++ [if ((if bl < s.cur_len then bl else s.cur_len : ℚ) : WithTop ℚ) < s.best_len
        then (((if bl < s.cur_len then bl else s.cur_len : ℚ) : ℚ) : WithTop ℚ)
        else s.best_len],
      if bl < s.cur_len then 0 else s.nic + 1,
      if bl < s.cur_len then bn else s.cur,
      if bl < s.cur_len then bl else s.cur_len,
      s.ridx⟩, ?_, hble, rfl, hperm1⟩
    simp only [step, hg, if_neg hre]

theorem loop_spec (d : ℕ → ℕ → ℚ) (draws : ℕ → List ℕ) (r N : ℕ)
    (hN : 2 ≤ N) (hdraws : ∀ t, (draws t).Perm (baseTour N)) :
    ∀ (k : ℕ) (s : HcsState),
      s.cur.Perm (baseTour N) →
      (s.traj = [] ∨ s.traj.getLast? = some s.best_len) →
      s.traj.Chain' (fun a b => b ≤ a) →
      ∃ s', loop d draws r k s = .ok s' ∧
        s'.traj.length = s.traj.length + k ∧
        (s'.traj = [] ∨ s'.traj.getLast? = some s'.best_len) ∧
        s'.traj.Chain' (fun a b => b ≤ a) := by
  intro k
  induction k with
  | zero =>
    intro s hcur h1 h2
    exact ⟨s, rfl, by simp, h1, h2⟩
  | succ k' ih =>
    intro s hcur h1 h2
    obtain ⟨s1, hstep, hble, htraj, hcur1⟩ := step_spec d draws r N hN hdraws s hcur
    obtain ⟨s', hloop, hlen', hlast', hchain'⟩ := ih s1 hcur1
      (Or.inr (by rw [htraj]; exact List.getLast?_concat _))
      (by
        rw [htraj, List.chain'_append]
        refine ⟨h2, List.chain'_singleton _, ?_⟩
        intro x hx y hy
        rcases h1 with hemp | hlast
        · rw [hemp] at hx; cases hx
        · rw [hlast] at hx
          cases hx
          cases hy
          exact hble)
    refine ⟨s', ?_, ?_, hlast', hchain'⟩
    · rw [loop, hstep]
      exact hloop
    · rw [htraj] at hlen'
      simp only [List.length_append, List.length_cons, List.length_nil] at hlen' ⊢
      omega

theorem hill_climbing_run_spec (d : ℕ → ℕ → ℚ) (draws : ℕ → List ℕ) (N k r : ℕ)
    (hN : 2 ≤ N) (hdraws : ∀ t, (draws t).Perm (baseTour N)) :
    ∃ bs bl traj, hill_climbing d draws k r = .ok (bs, bl, traj) ∧
      traj.length = k ∧ traj.Chain' (fun a b => b ≤ a) ∧
      (k ≠ 0 → traj.getLast? = some bl) := by
  have hlen0 : (draws 0).length = N := by
    rw [(hdraws 0).length_eq, baseTour, List.length_range']
  have hne0 : draws 0 ≠ [] := by
    intro h; rw [h] at hlen0; simp only [List.length_nil] at hlen0; omega
  obtain ⟨cl0, hcl0⟩ := route_length_ok d hne0
  obtain ⟨s', hloop, hlen, hlast, hchain⟩ :=
    loop_spec d draws r N hN hdraws k ⟨none, ⊤, [], 0, draws 0, cl0, 1⟩
      (hdraws 0) (Or.inl rfl) List.chain'_nil
  refine ⟨s'.best, s'.best_len, s'.traj, ?_, ?_, hchain, ?_⟩
  · simp only [hill_climbing, hcl0, hloop]
  · simpa using hlen
  · intro hk
    rcases hlast with hemp | hl
    · exfalso
      rw [hemp] at hlen
      simp only [List.length_nil] at hlen
      omega
    · exact hl

end tsp_hcs

section MatrixLemmas

theorem getD_row_length {n : ℕ} {m : List (List ℝ)} (hm : m.length = n)
    (hrow : ∀ row ∈ m, row.length = n) {i : ℕ} (hi : i < n) :
    (m.getD i []).length = n := by
  rw [List.getD_eq_getElem?_getD, List.getElem?_eq_getElem (by omega), Option.getD_some]
  exact hrow _ (List.getElem_mem _)

theorem getEntry_eq (m : List (List ℝ)) (a b : ℕ) :
    getEntry m a b = (m[a]?.getD [])[b]?.getD 0 := by
  rw [getEntry, List.getD_eq_getElem?_getD, List.getD_eq_getElem?_getD]

theorem getEntry_replicate (n a b : ℕ) :
    getEntry (List.replicate n (List.replicate n (0 : ℝ))) a b = 0 := by
  rw [getEntry_eq, List.getElem?_replicate]
  by_cases ha : a < n
  · rw [if_pos ha, Option.getD_some, List.getElem?_replicate]
    by_cases hb : b < n
    · rw [if_pos hb, Option.getD_some]
    · rw [if_neg hb, Option.getD_none]
  · rw [if_neg ha, Option.getD_none, List.getElem?_nil, Option.getD_none]

theorem getEntry_setEntry_same {m : List (List ℝ)} {i j : ℕ} {v : ℝ}
    (hi : i < m.length) (hj : j < (m.getD i []).length) :
    getEntry (setEntry m i j v) i j = v := by
  rw [setEntry, getEntry_eq, List.getElem?_set_self hi, Option.getD_some,
    List.getElem?_set_self hj, Option.getD_some]

theorem getEntry_setEntry_ne {m : List (List ℝ)} {i j a b : ℕ} {v : ℝ}
    (ha : a < m.length) (hne : a ≠ i ∨ b ≠ j) :
    getEntry (setEntry m i j v) a b = getEntry m a b := by
  by_cases hai : a = i
  · subst hai
    have hbj : b ≠ j := by
      rcases hne with h | h
      · exact absurd rfl h
      · exact h
    rw [setEntry, getEntry_eq, getEntry_eq, List.getElem?_set_self ha, Option.getD_some,
      List.getElem?_set_ne (fun h => hbj h.symm), List.getD_eq_getElem?_getD]
  · rw [setEntry, getEntry_eq, getEntry_eq, List.getElem?_set_ne (fun h => hai h.symm)]

theorem setEntry_shape {n : ℕ} {m : List (List ℝ)} {i j : ℕ} {v : ℝ}
    (hm : m.length = n) (hrow : ∀ row ∈ m, row.length = n) (hi : i < n) :
    (setEntry m i j v).length = n ∧ ∀ row ∈ setEntry m i j v, row.length = n := by
  refine ⟨by rw [setEntry, List.length_set, hm], ?_⟩
  intro row hmem
  rcases List.mem_or_eq_of_mem_set hmem with h | h
  · exact hrow row h
  · rw [h, List.length_set]
    exact getD_row_length hm hrow hi

theorem innerStep_shape {f : ℝ × ℝ → ℝ × ℝ → ℝ} {coords : List (ℝ × ℝ)} {i j : ℕ}
    (hi : i < coords.length) (hj : j < coords.length) {m : List (List ℝ)}
    (hm : m.length = coords.length) (hrow : ∀ row ∈ m, row.length = coords.length) :
    (innerStep f coords i m j).length = coords.length ∧
      ∀ row ∈ innerStep f coords i m j, row.length = coords.length := by
  obtain ⟨h1, h2⟩ := setEntry_shape hm hrow hi
    (j := j) (v := f (coords.getD i (0, 0)) (coords.getD j (0, 0)))
  exact setEntry_shape h1 h2 hj

theorem innerFold_shape {f : ℝ × ℝ → ℝ × ℝ → ℝ} {coords : List (ℝ × ℝ)} {i : ℕ}
    (hi : i < coords.length) :
    ∀ (J : List ℕ) {m : List (List ℝ)}, (∀ j ∈ J, j < coords.length) →
      m.length = coords.length → (∀ row ∈ m, row.length = coords.length) →
      (J.foldl (innerStep f coords i) m).length = coords.length ∧
        ∀ row ∈ J.foldl (innerStep f coords i) m, row.length = coords.length := by
  intro J
  induction J with
  | nil => intro m _ hm hrow; exact ⟨hm, hrow⟩
  | cons j J' ih =>
    intro m hJ hm hrow
    obtain ⟨h1, h2⟩ := innerStep_shape (f := f) hi (hJ j (List.mem_cons_self j J')) hm hrow
    exact ih (fun x hx => hJ x (List.mem_cons_of_mem j hx)) h1 h2

theorem getEntry_innerStep {f : ℝ × ℝ → ℝ × ℝ → ℝ} {coords : List (ℝ × ℝ)}
    {i j : ℕ} (hij : i < j) (hj : j < coords.length) {m : List (List ℝ)}
    (hm : m.length = coords.length) (hrow : ∀ row ∈ m, row.length = coords.length)
    (a b : ℕ) (ha : a < coords.length) :
    getEntry (innerStep f coords i m j) a b =
      if a = i ∧ b = j then f (coords.getD i (0, 0)) (coords.getD j (0, 0))
      else if a = j ∧ b = i then f (coords.getD i (0, 0)) (coords.getD j (0, 0))
      else getEntry m a b := by
  have hi : i < coords.length := lt_trans hij hj
  obtain ⟨hm1, hrow1⟩ := setEntry_shape hm hrow hi
    (j := j) (v := f (coords.getD i (0, 0)) (coords.getD j (0, 0)))
  by_cases h1 : a = j ∧ b = i
  · obtain ⟨rfl, rfl⟩ := h1
    rw [innerStep]
    rw [getEntry_setEntry_same (by omega) (by rw [getD_row_length hm1 hrow1 (by omega)]; omega)]
    rw [if_neg (by omega), if_pos ⟨rfl, rfl⟩]
  · by_cases h2 : a = i ∧ b = j
    · obtain ⟨rfl, rfl⟩ := h2
      rw [innerStep]
      rw [getEntry_setEntry_ne (by omega) (Or.inl (by omega)),
        getEntry_setEntry_same (by omega) (by rw [getD_row_length hm hrow (by omega)]; omega)]
      rw [if_pos ⟨rfl, rfl⟩]
    · rw [innerStep]
      have hne1 : a ≠ j ∨ b ≠ i := by
        by_cases haj : a = j
        · exact Or.inr (fun hbi => h1 ⟨haj, hbi⟩)
        · exact Or.inl haj
      have hne2 : a ≠ i ∨ b ≠ j := by
        by_cases hai : a = i
        · exact Or.inr (fun hbj => h2 ⟨hai, hbj⟩)
        · exact Or.inl hai
      rw [getEntry_setEntry_ne (by omega) hne1, getEntry_setEntry_ne (by omega) hne2]
      rw [if_neg h2, if_neg h1]

theorem getEntry_innerFold {f : ℝ × ℝ → ℝ × ℝ → ℝ} {coords : List (ℝ × ℝ)} {i : ℕ}
    (hi : i < coords.length) :
    ∀ (J : List ℕ) {m : List (List ℝ)}, J.Nodup →
      (∀ j ∈ J, i < j ∧ j < coords.length) →
      m.length = coords.length → (∀ row ∈ m, row.length = coords.length) →
      ∀ a b : ℕ, a < coords.length → b < coords.length →
      getEntry (J.foldl (innerStep f coords i) m) a b =
        if a = i ∧ b ∈ J then f (coords.getD i (0, 0)) (coords.getD b (0, 0))
        else if b = i ∧ a ∈ J then f (coords.getD i (0, 0)) (coords.getD a (0, 0))
        else getEntry m a b := by
  intro J
  induction J with
  | nil =>
    intro m _ _ hm hrow a b ha hb
    simp
  | cons j J' ih =>
    intro m hnd hJ hm hrow a b ha hb
    have hjb : i < j ∧ j < coords.length := hJ j (List.mem_cons_self j J')
    obtain ⟨hm1, hrow1⟩ := innerStep_shape (f := f) hi hjb.2 hm hrow
    rw [List.foldl_cons,
      ih hnd.of_cons (fun x hx => hJ x (List.mem_cons_of_mem j hx)) hm1 hrow1 a b ha hb]
    have hstep := getEntry_innerStep (f := f) hjb.1 hjb.2 hm hrow a b ha
    have hjJ' : j ∉ J' := (List.nodup_cons.mp hnd).1
    have hiJ' : i ∉ J' := fun h => absurd (hJ i (List.mem_cons_of_mem j h)).1 (lt_irrefl i)
    by_cases hai : a = i
    · subst hai
      by_cases hbJ' : b ∈ J'
      · rw [if_pos ⟨rfl, hbJ'⟩, if_pos ⟨rfl, List.mem_cons_of_mem j hbJ'⟩]
      · rw [if_neg (fun h => hbJ' h.2), if_neg (fun h => hiJ' h.2)]
        by_cases hbj : b = j
        · rw [hstep, if_pos ⟨rfl, hbj⟩,
            if_pos ⟨rfl, by rw [hbj]; exact List.mem_cons_self j J'⟩, hbj]
        · rw [hstep, if_neg (fun h => hbj h.2),
            if_neg (fun h => absurd h.1 (by omega)),
            if_neg (fun h => (List.mem_cons.mp h.2).elim hbj hbJ'),
            if_neg (fun h => (List.mem_cons.mp h.2).elim
              (fun hc => (by omega : ¬ a = j) hc) hiJ')]
    · by_cases hbi : b = i
      · subst hbi
        by_cases haJ' : a ∈ J'
        · rw [if_neg (fun h => hai h.1), if_pos ⟨rfl, haJ'⟩,
            if_neg (fun h => hai h.1), if_pos ⟨rfl, List.mem_cons_of_mem j haJ'⟩]
        · rw [if_neg (fun h => hai h.1), if_neg (fun h => haJ' h.2)]
          by_cases haj : a = j
          · rw [hstep, if_neg (fun h => hai h.1), if_pos ⟨haj, rfl⟩,
              if_neg (fun h => hai h.1),
              if_pos ⟨rfl, by rw [haj]; exact List.mem_cons_self j J'⟩, haj]
          · rw [hstep, if_neg (fun h => hai h.1), if_neg (fun h => haj h.1),
              if_neg (fun h => hai h.1),
              if_neg (fun h => (List.mem_cons.mp h.2).elim haj haJ')]
      · rw [if_neg (fun h => hai h.1), if_neg (fun h => hbi h.1), hstep,
          if_neg (fun h => hai h.1), if_neg (fun h => hbi h.2),
          if_neg (fun h => hai h.1), if_neg (fun h => hbi h.1)]

theorem outerStep_shape {f : ℝ × ℝ → ℝ × ℝ → ℝ} {coords : List (ℝ × ℝ)} {i : ℕ}
    (hi : i < coords.length) {m : List (List ℝ)}
    (hm : m.length = coords.length) (hrow : ∀ row ∈ m, row.length = coords.length) :
    (outerStep f coords m i).length = coords.length ∧
      ∀ row ∈ outerStep f coords m i, row.length = coords.length := by
  rw [outerStep]
  exact innerFold_shape hi _ (fun j hj => by rw [List.mem_range'_1] at hj; omega) hm hrow

theorem getEntry_outerStep {f : ℝ × ℝ → ℝ × ℝ → ℝ} {coords : List (ℝ × ℝ)} {i : ℕ}
    (hi : i < coords.length) {m : List (List ℝ)}
    (hm : m.length = coords.length) (hrow : ∀ row ∈ m, row.length = coords.length)
    (a b : ℕ) (ha : a < coords.length) (hb : b < coords.length) :
    getEntry (outerStep f coords m i) a b =
      if a = i ∧ i < b then f (coords.getD i (0, 0)) (coords.getD b (0, 0))
      else if b = i ∧ i < a then f (coords.getD i (0, 0)) (coords.getD a (0, 0))
      else getEntry m a b := by
  rw [outerStep, getEntry_innerFold hi _ (List.nodup_range' _ _)
    (fun j hj => by rw [List.mem_range'_1] at hj; omega) hm hrow a b ha hb]
  have hmemb : (b ∈ List.range' (i + 1) (coords.length - (i + 1))) ↔ i < b := by
    rw [List.mem_range'_1]; omega
  have hmema : (a ∈ List.range' (i + 1) (coords.length - (i + 1))) ↔ i < a := by
    rw [List.mem_range'_1]; omega
  simp only [hmemb, hmema]

theorem outerFold_shape {f : ℝ × ℝ → ℝ × ℝ → ℝ} {coords : List (ℝ × ℝ)} :
    ∀ (I : List ℕ) {m : List (List ℝ)}, (∀ i ∈ I, i < coords.length) →
      m.length = coords.length → (∀ row ∈ m, row.length = coords.length) →
      (I.foldl (outerStep f coords) m).length = coords.length ∧
        ∀ row ∈ I.foldl (outerStep f coords) m, row.length = coords.length := by
  intro I
  induction I with
  | nil => intro m _ hm hrow; exact ⟨hm, hrow⟩
  | cons i I' ih =>
    intro m hI hm hrow
    obtain ⟨h1, h2⟩ := outerStep_shape (f := f) (hI i (List.mem_cons_self i I')) hm hrow
    exact ih (fun x hx => hI x (List.mem_cons_of_mem i hx)) h1 h2

theorem getEntry_outerFold {f : ℝ × ℝ → ℝ × ℝ → ℝ} {coords : List (ℝ × ℝ)} :
    ∀ (I : List ℕ) {m : List (List ℝ)}, I.Nodup → (∀ i ∈ I, i < coords.length) →
      m.length = coords.length → (∀ row ∈ m, row.length = coords.length) →
      ∀ a b : ℕ, a < coords.length → b < coords.length →
      getEntry (I.foldl (outerStep f coords) m) a b =
        if min a b ∈ I ∧ a ≠ b then
          f (coords.getD (min a b) (0, 0)) (coords.getD (max a b) (0, 0))
        else getEntry m a b := by
  intro I
  induction I with
  | nil =>
    intro m _ _ hm hrow a b ha hb
    simp
  | cons i I' ih =>
    intro m hnd hI hm hrow a b ha hb
    have hii : i < coords.length := hI i (List.mem_cons_self i I')
    obtain ⟨hm1, hrow1⟩ := outerStep_shape (f := f) hii hm hrow
    rw [List.foldl_cons,
      ih hnd.of_cons (fun x hx => hI x (List.mem_cons_of_mem i hx)) hm1 hrow1 a b ha hb]
    have hstep := getEntry_outerStep (f := f) hii hm hrow a b ha hb
    by_cases hmin : min a b ∈ I' ∧ a ≠ b
    · rw [if_pos hmin, if_pos ⟨List.mem_cons_of_mem i hmin.1, hmin.2⟩]
    · rw [if_neg hmin, hstep]
      by_cases hcase : min a b = i ∧ a ≠ b
      · obtain ⟨hminieq, hab⟩ := hcase
        rcases lt_or_gt_of_ne hab with hlt | hgt
        · rw [if_pos ⟨by omega, by omega⟩,
            if_pos ⟨by rw [hminieq]; exact List.mem_cons_self i I', hab⟩,
            min_eq_left hlt.le, max_eq_right hlt.le, (by omega : a = i)]
        · rw [if_neg (fun h => absurd h.2 (by omega)),
            if_pos ⟨by omega, by omega⟩,
            if_pos ⟨by rw [hminieq]; exact List.mem_cons_self i I', hab⟩,
            min_eq_right hgt.le, max_eq_left hgt.le, (by omega : b = i)]
      · rw [if_neg (fun h => hcase ⟨by omega, by omega⟩),
          if_neg (fun h => hcase ⟨by omega, by omega⟩),
          if_neg (fun h => (List.mem_cons.mp h.1).elim
            (fun hc => hcase ⟨hc, h.2⟩) (fun hc => hmin ⟨hc, h.2⟩))]

theorem replicate_shape (n : ℕ) :
    (List.replicate n (List.replicate n (0 : ℝ))).length = n ∧
      ∀ row ∈ List.replicate n (List.replicate n (0 : ℝ)), row.length = n := by
  refine ⟨List.length_replicate n _, ?_⟩
  intro row hrow
  rw [List.eq_of_mem_replicate hrow]
  exact List.length_replicate n _

theorem distance_matrix_with_entry (f : ℝ × ℝ → ℝ × ℝ → ℝ) (coords : List (ℝ × ℝ))
    (a b : ℕ) (ha : a < coords.length) (hb : b < coords.length) :
    getEntry (distance_matrix_with f coords) a b =
      if a = b then 0
      else f (coords.getD (min a b) (0, 0)) (coords.getD (max a b) (0, 0)) := by
  obtain ⟨hm, hrow⟩ := replicate_shape (n := coords.length)
  rw [distance_matrix_with, getEntry_outerFold (List.range coords.length)
    (List.nodup_range coords.length) (fun x hx => List.mem_range.mp hx) hm hrow a b ha hb]
  by_cases hab : a = b
  · rw [if_neg (fun h => h.2 hab), getEntry_replicate, if_pos hab]
  · rw [if_pos ⟨List.mem_range.mpr (by omega), hab⟩, if_neg hab]

theorem distance_matrix_with_shape (f : ℝ × ℝ → ℝ × ℝ → ℝ) (coords : List (ℝ × ℝ)) :
    (distance_matrix_with f coords).length = coords.length ∧
      ∀ row ∈ distance_matrix_with f coords, row.length = coords.length := by
  obtain ⟨hm, hrow⟩ := replicate_shape (n := coords.length)
  rw [distance_matrix_with]
  exact outerFold_shape _ (fun x hx => List.mem_range.mp hx) hm hrow

/-- The matrix depends on the distance function only through its values at
coordinate pairs with strictly increasing indices: only the upper triangle is
ever computed by a distance evaluation (the lower triangle is mirrored). -/
theorem distance_matrix_with_congr (f g : ℝ × ℝ → ℝ × ℝ → ℝ) (coords : List (ℝ × ℝ))
    (h : ∀ a b : ℕ, a < b → b < coords.length →
      f (coords.getD a (0, 0)) (coords.getD b (0, 0))
        = g (coords.getD a (0, 0)) (coords.getD b (0, 0))) :
    distance_matrix_with f coords = distance_matrix_with g coords := by
  rw [distance_matrix_with, distance_matrix_with]
  apply List.foldl_ext
  intro m i hi
  rw [List.mem_range] at hi
  rw [outerStep, outerStep]
  apply List.foldl_ext
  intro m' j hj
  rw [List.mem_range'_1] at hj
  simp only [innerStep]
  rw [h i j (by omega) (by omega)]

theorem euclidean_distance_symm (p q : ℝ × ℝ) :
    euclidean_distance p q = euclidean_distance q p := by
  have harg : (p.1 - q.1) ^ 2 + (p.2 - q.2) ^ 2
      = (q.1 - p.1) ^ 2 + (q.2 - p.2) ^ 2 := by ring
  rw [euclidean_distance, euclidean_distance, harg]

end MatrixLemmas

/-! Claim theorems. -/

/-- C1: for a tour `T` that is a permutation of `{1..N}` with `N ≥ 2`,
`get_neighbors T` returns exactly `N·(N-1)/2` pairwise-distinct tours; every
returned tour is `T` with exactly one position pair `a < c` transposed (it
agrees with `T` away from `a` and `c` and swaps the two entries there) and
differs from `T`; `T` itself is never among them; conversely every position
pair `i < j` contributes its swap; and on a single-position tour the neighbor
list is empty.  The input tour is left unmodified: the embedding of
`get_neighbors` is a pure function of `T` (each Python neighbor is built from
`current_solution.copy()`). -/
theorem claim_C1 (T : List ℕ) (N : ℕ) (hN : 2 ≤ N) (hT : T.Perm (baseTour N))
    (i j : ℕ) (hij : i < j) (hj : j < N) (T1 : List ℕ) (hT1 : T1.length = 1) :
    (get_neighbors T).length = N * (N - 1) / 2 ∧
    (get_neighbors T).Nodup ∧
    T ∉ get_neighbors T ∧
    (∀ nb ∈ get_neighbors T, ∃ a c, a < c ∧ c < N ∧ nb = swapPos T a c ∧
      nb.getD a 0 = T.getD c 0 ∧ nb.getD c 0 = T.getD a 0 ∧
      (∀ k, k ≠ a → k ≠ c → nb.getD k 0 = T.getD k 0) ∧ nb ≠ T) ∧
    swapPos T i j ∈ get_neighbors T ∧
    get_neighbors T1 = [] := by
  have hTlen : T.length = N := by rw [hT.length_eq, baseTour, List.length_range']
  have hnd : T.Nodup := (hT.symm).nodup (List.nodup_range' 1 N)
  refine ⟨?_, get_neighbors_nodup hnd, self_not_mem_get_neighbors hnd, ?_, ?_, ?_⟩
  · rw [get_neighbors_length, hTlen]
  · intro nb hnb
    obtain ⟨a, c, hac, hc, rfl⟩ := (mem_get_neighbors_iff T nb).mp hnb
    have hgetD := swapPos_getD T (Nat.ne_of_lt hac) (lt_trans hac hc) hc
    refine ⟨a, c, hac, by omega, rfl, ?_, ?_, ?_, swapPos_ne T hnd hac hc⟩
    · rw [hgetD a, if_neg (by omega), if_pos rfl]
    · rw [hgetD c, if_pos rfl]
    · intro k hka hkc
      rw [hgetD k, if_neg hkc, if_neg hka]
  · exact (mem_get_neighbors_iff T _).mpr ⟨i, j, hij, by omega, rfl⟩
  · obtain ⟨x, rfl⟩ := List.length_eq_one.mp hT1
    exact get_neighbors_singleton x

theorem claim_C1_witness :
    2 ≤ 2 ∧ ([2, 1] : List ℕ).Perm (baseTour 2) ∧ 0 < 1 ∧ 1 < 2 ∧
      ([5] : List ℕ).length = 1 ∧
      ((get_neighbors [2, 1]).length = 2 * (2 - 1) / 2 ∧
        (get_neighbors [2, 1]).Nodup ∧
        ([2, 1] : List ℕ) ∉ get_neighbors [2, 1] ∧
        (∀ nb ∈ get_neighbors [2, 1], ∃ a c, a < c ∧ c < 2 ∧ nb = swapPos [2, 1] a c ∧
          nb.getD a 0 = ([2, 1] : List ℕ).getD c 0 ∧
          nb.getD c 0 = ([2, 1] : List ℕ).getD a 0 ∧
          (∀ k, k ≠ a → k ≠ c → nb.getD k 0 = ([2, 1] : List ℕ).getD k 0) ∧
          nb ≠ [2, 1]) ∧
        swapPos [2, 1] 0 1 ∈ get_neighbors [2, 1] ∧
        get_neighbors [5] = []) :=
  ⟨by decide, by decide, by decide, by decide, by decide,
    claim_C1 [2, 1] 2 (by decide) (by decide) 0 1 (by decide) (by decide) [5] (by decide)⟩

/-- C3: for every non-empty tour and every distance table, `route_length`
returns the sum of the table entries between consecutive tour positions
(`edgeSum`) plus the wrap-around edge from the last city back to the first;
for a single-city tour with a zero-diagonal table it returns 0 (only the
wrap-around edge, the diagonal entry).  Determinism holds by construction:
the embedding is a pure function of the tour and the table. -/
theorem claim_C3 (d : ℕ → ℕ → ℚ) (a : ℕ) (t : List ℕ) (c : ℕ)
    (hdiag : ∀ i, d i i = 0) :
    route_length (a :: t) d
      = .ok (edgeSum d (a :: t) + d ((a :: t).getLastD 0 - 1) (a - 1)) ∧
    route_length [c] d = .ok 0 := by
  refine ⟨route_length_cons d a t, ?_⟩
  rw [route_length_cons]
  show Except.ok ((0 : ℚ) + d (c - 1) (c - 1)) = Except.ok 0
  rw [hdiag (c - 1), add_zero]

theorem claim_C3_witness :
    (∀ i : ℕ, (fun _ _ : ℕ => (0 : ℚ)) i i = 0) ∧
      (route_length [1, 2] (fun _ _ : ℕ => (0 : ℚ))
        = .ok (edgeSum (fun _ _ : ℕ => (0 : ℚ)) [1, 2]
            + (fun _ _ : ℕ => (0 : ℚ)) (([1, 2] : List ℕ).getLastD 0 - 1) (1 - 1)) ∧
      route_length [3] (fun _ _ : ℕ => (0 : ℚ)) = .ok 0) :=
  ⟨fun _ => rfl, claim_C3 (fun _ _ => (0 : ℚ)) 1 [2] 3 (fun _ => rfl)⟩

/-- C5: for every tour and every symmetric distance table, the route length
of the reversed tour equals the route length of the tour (including the error
case: both sides fail identically on the empty tour). -/
theorem claim_C5 (T : List ℕ) (d : ℕ → ℕ → ℚ) (hsym : ∀ a b, d a b = d b a) :
    route_length T.reverse d = route_length T d := by
  cases T with
  | nil => rfl
  | cons a t =>
    obtain ⟨b, s, hbs⟩ : ∃ b s, (a :: t).reverse = b :: s := by
      cases h : (a :: t).reverse with
      | nil =>
        exfalso
        have := congrArg List.length h
        simp at this
      | cons b s => exact ⟨b, s, rfl⟩
    have hlast : (b :: s).getLastD 0 = a := by
      rw [← hbs, List.getLastD_eq_getLast?, List.getLast?_reverse]
      rfl
    have hhead : b = (a :: t).getLastD 0 := by
      have h1 : ((a :: t).reverse).head? = some b := by rw [hbs]; rfl
      rw [List.head?_reverse] at h1
      rw [List.getLastD_eq_getLast?, h1]
      rfl
    have hedge : edgeSum d (b :: s) = edgeSum d (a :: t) := by
      rw [← hbs]
      exact edgeSum_reverse d hsym (a :: t)
    rw [hbs, route_length_cons, route_length_cons, hedge, hlast, ← hhead]
    rw [hsym (a - 1) (b - 1)]

theorem claim_C5_witness :
    (∀ a b : ℕ, ((fun x y : ℕ => (x : ℚ) + y) a b) = ((fun x y : ℕ => (x : ℚ) + y) b a)) ∧
      route_length ([1, 2, 3] : List ℕ).reverse (fun x y : ℕ => (x : ℚ) + y)
        = route_length [1, 2, 3] (fun x y : ℕ => (x : ℚ) + y) :=
  ⟨fun a b => add_comm (a : ℚ) b,
    claim_C5 [1, 2, 3] (fun x y : ℕ => (x : ℚ) + y) (fun a b => add_comm (a : ℚ) b)⟩

/-- C2: for every instance with `N ≥ 2` cities (each random draw a
permutation of `{1..N}`), every distance table, every iteration budget `k`
and every restart threshold, both hill-climbing variants succeed and return a
trajectory with exactly `k` entries (one appended per iteration) that is
non-increasing at every step, and whose last entry (when `k > 0`) is the
returned best route length. -/
theorem claim_C2 (d : ℕ → ℕ → ℚ) (draws : ℕ → List ℕ) (N k r : ℕ)
    (hN : 2 ≤ N) (hdraws : ∀ t, (draws t).Perm (baseTour N)) :
    (∃ bs bl traj, tsp.hill_climbing d draws k r = .ok (bs, bl, traj) ∧
      traj.length = k ∧ traj.Chain' (fun a b => b ≤ a) ∧
      (k ≠ 0 → traj.getLast? = some bl)) ∧
    (∃ bs bl traj, tsp_hcs.hill_climbing d draws k r = .ok (bs, bl, traj) ∧
      traj.length = k ∧ traj.Chain' (fun a b => b ≤ a) ∧
      (k ≠ 0 → traj.getLast? = some bl)) :=
  ⟨tsp.hill_climbing_spec d draws N k r hN hdraws,
    tsp_hcs.hill_climbing_run_spec d draws N k r hN hdraws⟩

theorem claim_C2_witness :
    2 ≤ 2 ∧ (∀ t : ℕ, ((fun _ : ℕ => ([1, 2] : List ℕ)) t).Perm (baseTour 2)) ∧
    ((∃ bs bl traj,
        tsp.hill_climbing (fun _ _ : ℕ => (0 : ℚ)) (fun _ => [1, 2]) 3 1
          = .ok (bs, bl, traj) ∧
        traj.length = 3 ∧ traj.Chain' (fun a b => b ≤ a) ∧
        (3 ≠ 0 → traj.getLast? = some bl)) ∧
      (∃ bs bl traj,
        tsp_hcs.hill_climbing (fun _ _ : ℕ => (0 : ℚ)) (fun _ => [1, 2]) 3 1
          = .ok (bs, bl, traj) ∧
        traj.length = 3 ∧ traj.Chain' (fun a b => b ≤ a) ∧
        (3 ≠ 0 → traj.getLast? = some bl))) :=
  ⟨by decide, fun _ => (by decide : ([1, 2] : List ℕ).Perm (baseTour 2)),
    claim_C2 (fun _ _ => (0 : ℚ)) (fun _ => [1, 2]) 2 3 1 (by decide)
      (fun _ => (by decide : ([1, 2] : List ℕ).Perm (baseTour 2)))⟩

/-- C10: in tsp.py's outer-loop `hill_climbing`, the returned triple (best
tour, best length, trajectory) is the same function of the draw stream for
every value of the restart threshold: the restart branch and its else branch
perform identical operations (both draw a fresh random tour), so the
stagnation counter and the threshold have no observable effect. -/
theorem claim_C10 (d : ℕ → ℕ → ℚ) (draws : ℕ → List ℕ) (k r1 r2 : ℕ) :
    tsp.hill_climbing d draws k r1 = tsp.hill_climbing d draws k r2 := by
  rw [tsp.hill_climbing_eq_map, tsp.hill_climbing_eq_map]
  exact tsp.tsp_loop_threshold d draws r1 r2 (List.range k) _ _ rfl rfl rfl

/-- C6: one iteration of the inner-loop engine (tsp_hcs.py) either adopts a
strictly better best neighbor and resets the stagnation counter to 0, or
keeps the current tour and increments the counter by 1; afterwards the
current tour is replaced by a brand-new random draw (with the counter reset
to 0 and the draw index advanced) exactly when the resulting counter has
reached the restart threshold, and never otherwise. -/
theorem claim_C6 (d : ℕ → ℕ → ℚ) (draws : ℕ → List ℕ) (r : ℕ)
    (s : tsp_hcs.HcsState) (bn : List ℕ) (bl dl : ℚ)
    (hg : get_best_neighbor (get_neighbors s.cur) d = .ok (bn, bl))
    (hrld : route_length (draws s.ridx) d = .ok dl) :
    ∃ s', tsp_hcs.step d draws r s = .ok s' ∧
      (bl < s.cur_len →
        (0 ≥ r → s'.cur = draws s.ridx ∧ s'.cur_len = dl ∧ s'.nic = 0 ∧
          s'.ridx = s.ridx + 1) ∧
        (¬ 0 ≥ r → s'.cur = bn ∧ s'.cur_len = bl ∧ s'.nic = 0 ∧
          s'.ridx = s.ridx)) ∧
      (¬ bl < s.cur_len →
        (s.nic + 1 ≥ r → s'.cur = draws s.ridx ∧ s'.cur_len = dl ∧ s'.nic = 0 ∧
          s'.ridx = s.ridx + 1) ∧
        (¬ s.nic + 1 ≥ r → s'.cur = s.cur ∧ s'.cur_len = s.cur_len ∧
          s'.nic = s.nic + 1 ∧ s'.ridx = s.ridx)) := by
  by_cases hlt : bl < s.cur_len
  · by_cases hre : 0 ≥ r
    · refine ⟨⟨if ((bl : ℚ) : WithTop ℚ) < s.best_len then some bn else s.best,
        if ((bl : ℚ) : WithTop ℚ) < s.best_len then ((bl : ℚ) : WithTop ℚ) else s.best_len,
        s.traj ++ [if ((bl : ℚ) : WithTop ℚ) < s.best_len then ((bl : ℚ) : WithTop ℚ)
          else s.best_len],
        0, draws s.ridx, dl, s.ridx + 1⟩, ?_,
        fun _ => ⟨fun _ => ⟨rfl, rfl, rfl, rfl⟩, fun hnre => absurd hre hnre⟩,
        fun hnlt => absurd hlt hnlt⟩
      simp only [tsp_hcs.step, hg, if_pos hlt, if_pos hre, hrld]
    · refine ⟨⟨if ((bl : ℚ) : WithTop ℚ) < s.best_len then some bn else s.best,
        if ((bl : ℚ) : WithTop ℚ) < s.best_len then ((bl : ℚ) : WithTop ℚ) else s.best_len,
        s.traj ++ [if ((bl : ℚ) : WithTop ℚ) < s.best_len then ((bl : ℚ) : WithTop ℚ)
          else s.best_len],
        0, bn, bl, s.ridx⟩, ?_,
        fun _ => ⟨fun hre' => absurd hre' hre, fun _ => ⟨rfl, rfl, rfl, rfl⟩⟩,
        fun hnlt => absurd hlt hnlt⟩
      simp only [tsp_hcs.step, hg, if_pos hlt, if_neg hre]
  · by_cases hre : s.nic + 1 ≥ r
    · refine ⟨⟨if ((s.cur_len : ℚ) : WithTop ℚ) < s.best_len then some s.cur else s.best,
        if ((s.cur_len : ℚ) : WithTop ℚ) < s.best_len then ((s.cur_len : ℚ) : WithTop ℚ)
          else s.best_len,
        s.traj ++ [if ((s.cur_len : ℚ) : WithTop ℚ) < s.best_len
          then ((s.cur_len : ℚ) : WithTop ℚ) else s.best_len],
        0, draws s.ridx, dl, s.ridx + 1⟩, ?_,
        fun hlt' => absurd hlt' hlt,
        fun _ => ⟨fun _ => ⟨rfl, rfl, rfl, rfl⟩, fun hnre => absurd hre hnre⟩⟩
      simp only [tsp_hcs.step, hg, if_neg hlt, if_pos hre, hrld]
    · refine ⟨⟨if ((s.cur_len : ℚ) : WithTop ℚ) < s.best_len then some s.cur else s.best,
        if ((s.cur_len : ℚ) : WithTop ℚ) < s.best_len then ((s.cur_len : ℚ) : WithTop ℚ)
          else s.best_len,
        s.traj ++ [if ((s.cur_len : ℚ) : WithTop ℚ) < s.best_len
          then ((s.cur_len : ℚ) : WithTop ℚ) else s.best_len],
        s.nic + 1, s.cur, s.cur_len, s.ridx⟩, ?_,
        fun hlt' => absurd hlt' hlt,
        fun _ => ⟨fun hre' => absurd hre' hre, fun _ => ⟨rfl, rfl, rfl, rfl⟩⟩⟩
      simp only [tsp_hcs.step, hg, if_neg hlt, if_neg hre]

theorem claim_C6_witness :
    get_best_neighbor (get_neighbors ([1, 2] : List ℕ)) (fun _ _ : ℕ => (0 : ℚ))
        = .ok ([2, 1], 0) ∧
    route_length ((fun _ : ℕ => ([1, 2] : List ℕ)) 1) (fun _ _ : ℕ => (0 : ℚ)) = .ok 0 ∧
    (∃ s', tsp_hcs.step (fun _ _ : ℕ => (0 : ℚ)) (fun _ => [1, 2]) 2
        ⟨none, ⊤, [], 0, [1, 2], 5, 1⟩ = .ok s' ∧
      ((0 : ℚ) < (⟨none, ⊤, [], 0, [1, 2], 5, 1⟩ : tsp_hcs.HcsState).cur_len →
        (0 ≥ 2 → s'.cur = [1, 2] ∧ s'.cur_len = 0 ∧ s'.nic = 0 ∧ s'.ridx = 1 + 1) ∧
        (¬ 0 ≥ 2 → s'.cur = [2, 1] ∧ s'.cur_len = 0 ∧ s'.nic = 0 ∧ s'.ridx = 1)) ∧
      (¬ (0 : ℚ) < (⟨none, ⊤, [], 0, [1, 2], 5, 1⟩ : tsp_hcs.HcsState).cur_len →
        (0 + 1 ≥ 2 → s'.cur = [1, 2] ∧ s'.cur_len = 0 ∧ s'.nic = 0 ∧ s'.ridx = 1 + 1) ∧
        (¬ 0 + 1 ≥ 2 → s'.cur = [1, 2] ∧ s'.cur_len = 5 ∧ s'.nic = 0 + 1 ∧
          s'.ridx = 1))) := by
  have hrl : route_length ([2, 1] : List ℕ) (fun _ _ : ℕ => (0 : ℚ)) = .ok 0 := by
    rw [show route_length ([2, 1] : List ℕ) (fun _ _ : ℕ => (0 : ℚ))
        = .ok ((0 : ℚ) + 0 + 0) from rfl]
    norm_num
  have hrl12 : route_length ([1, 2] : List ℕ) (fun _ _ : ℕ => (0 : ℚ)) = .ok 0 := by
    rw [show route_length ([1, 2] : List ℕ) (fun _ _ : ℕ => (0 : ℚ))
        = .ok ((0 : ℚ) + 0 + 0) from rfl]
    norm_num
  have hg : get_best_neighbor (get_neighbors ([1, 2] : List ℕ)) (fun _ _ : ℕ => (0 : ℚ))
      = .ok ([2, 1], 0) := by
    rw [show get_neighbors ([1, 2] : List ℕ) = [[2, 1]] from rfl]
    rw [get_best_neighbor, hrl]
    show (match route_length ([2, 1] : List ℕ) (fun _ _ : ℕ => (0 : ℚ)) with
      | Except.error e => Except.error e
      | Except.ok cl => gbn_go (fun _ _ : ℕ => (0 : ℚ)) []
          (if cl < (0 : ℚ) then (([2, 1] : List ℕ), cl) else ([2, 1], 0)))
      = Except.ok (([2, 1] : List ℕ), (0 : ℚ))
    rw [hrl]
    show gbn_go (fun _ _ : ℕ => (0 : ℚ)) []
        (if (0 : ℚ) < 0 then (([2, 1] : List ℕ), (0 : ℚ)) else ([2, 1], 0))
      = .ok ([2, 1], 0)
    rw [ite_self]
    rfl
  exact ⟨hg, hrl12,
    claim_C6 (fun _ _ => (0 : ℚ)) (fun _ => [1, 2]) 2 ⟨none, ⊤, [], 0, [1, 2], 5, 1⟩
      [2, 1] 0 0 hg hrl12⟩

/-- C4: for every coordinate sequence, the distance matrix is square of the
right size (including the degenerate cases: a single coordinate yields a 1x1
matrix and the empty sequence yields the empty matrix, not an error); every
in-range diagonal entry — the last one `(N-1, N-1)` included — is 0; the
entry at any pair `i < j` of in-range positions is the Euclidean distance
between the `i`-th and `j`-th coordinates, and the matrix is symmetric there
(the mirrored entry is literally the same stored value, and equals the
Euclidean distance taken in the opposite order); and the matrix depends on
the distance function only through its values on pairs `p < q`, i.e. only
the upper triangle is computed by a distance evaluation and the lower
triangle is mirrored. -/
theorem claim_C4 (coords : List (ℝ × ℝ)) (i j a : ℕ) (f g : ℝ × ℝ → ℝ × ℝ → ℝ)
    (ha : a < coords.length)
    (hagree : ∀ p q : ℕ, p < q → q < coords.length →
      f (coords.getD p (0, 0)) (coords.getD q (0, 0))
        = g (coords.getD p (0, 0)) (coords.getD q (0, 0))) :
    (distance_matrix coords).length = coords.length ∧
    (∀ row ∈ distance_matrix coords, row.length = coords.length) ∧
    getEntry (distance_matrix coords) a a = 0 ∧
    (i < j → j < coords.length →
      getEntry (distance_matrix coords) i j
        = euclidean_distance (coords.getD i (0, 0)) (coords.getD j (0, 0)) ∧
      getEntry (distance_matrix coords) j i = getEntry (distance_matrix coords) i j ∧
      getEntry (distance_matrix coords) j i
        = euclidean_distance (coords.getD j (0, 0)) (coords.getD i (0, 0))) ∧
    distance_matrix ([] : List (ℝ × ℝ)) = [] ∧
    distance_matrix_with f coords = distance_matrix_with g coords := by
  obtain ⟨hs1, hs2⟩ := distance_matrix_with_shape euclidean_distance coords
  refine ⟨hs1, hs2, ?_, ?_, rfl, distance_matrix_with_congr f g coords hagree⟩
  · rw [distance_matrix, distance_matrix_with_entry _ _ a a ha ha, if_pos rfl]
  · intro hij hj
    have hi : i < coords.length := lt_trans hij hj
    have he1 : getEntry (distance_matrix coords) i j
        = euclidean_distance (coords.getD i (0, 0)) (coords.getD j (0, 0)) := by
      rw [distance_matrix, distance_matrix_with_entry _ _ i j hi hj,
        if_neg (by omega), min_eq_left hij.le, max_eq_right hij.le]
    have he2 : getEntry (distance_matrix coords) j i
        = euclidean_distance (coords.getD i (0, 0)) (coords.getD j (0, 0)) := by
      rw [distance_matrix, distance_matrix_with_entry _ _ j i hj hi,
        if_neg (by omega), min_eq_right hij.le, max_eq_left hij.le]
    exact ⟨he1, by rw [he2, he1],
      by rw [he2]; exact euclidean_distance_symm _ _⟩

theorem claim_C4_witness :
    1 < ([((0 : ℝ), (0 : ℝ)), ((3 : ℝ), (4 : ℝ))] : List (ℝ × ℝ)).length ∧
    (∀ p q : ℕ, p < q → q < ([((0 : ℝ), (0 : ℝ)), ((3 : ℝ), (4 : ℝ))] : List (ℝ × ℝ)).length →
      euclidean_distance
          (([((0 : ℝ), (0 : ℝ)), ((3 : ℝ), (4 : ℝ))] : List (ℝ × ℝ)).getD p (0, 0))
          (([((0 : ℝ), (0 : ℝ)), ((3 : ℝ), (4 : ℝ))] : List (ℝ × ℝ)).getD q (0, 0))
        = euclidean_distance
          (([((0 : ℝ), (0 : ℝ)), ((3 : ℝ), (4 : ℝ))] : List (ℝ × ℝ)).getD p (0, 0))
          (([((0 : ℝ), (0 : ℝ)), ((3 : ℝ), (4 : ℝ))] : List (ℝ × ℝ)).getD q (0, 0))) ∧
    ((distance_matrix [((0 : ℝ), (0 : ℝ)), ((3 : ℝ), (4 : ℝ))]).length
        = ([((0 : ℝ), (0 : ℝ)), ((3 : ℝ), (4 : ℝ))] : List (ℝ × ℝ)).length ∧
      (∀ row ∈ distance_matrix [((0 : ℝ), (0 : ℝ)), ((3 : ℝ), (4 : ℝ))],
        row.length = ([((0 : ℝ), (0 : ℝ)), ((3 : ℝ), (4 : ℝ))] : List (ℝ × ℝ)).length) ∧
      getEntry (distance_matrix [((0 : ℝ), (0 : ℝ)), ((3 : ℝ), (4 : ℝ))]) 1 1 = 0 ∧
      (0 < 1 → 1 < ([((0 : ℝ), (0 : ℝ)), ((3 : ℝ), (4 : ℝ))] : List (ℝ × ℝ)).length →
        getEntry (distance_matrix [((0 : ℝ), (0 : ℝ)), ((3 : ℝ), (4 : ℝ))]) 0 1
          = euclidean_distance
              (([((0 : ℝ), (0 : ℝ)), ((3 : ℝ), (4 : ℝ))] : List (ℝ × ℝ)).getD 0 (0, 0))
              (([((0 : ℝ), (0 : ℝ)), ((3 : ℝ), (4 : ℝ))] : List (ℝ × ℝ)).getD 1 (0, 0)) ∧
        getEntry (distance_matrix [((0 : ℝ), (0 : ℝ)), ((3 : ℝ), (4 : ℝ))]) 1 0
          = getEntry (distance_matrix [((0 : ℝ), (0 : ℝ)), ((3 : ℝ), (4 : ℝ))]) 0 1 ∧
        getEntry (distance_matrix [((0 : ℝ), (0 : ℝ)), ((3 : ℝ), (4 : ℝ))]) 1 0
          = euclidean_distance
              (([((0 : ℝ), (0 : ℝ)), ((3 : ℝ), (4 : ℝ))] : List (ℝ × ℝ)).getD 1 (0, 0))
              (([((0 : ℝ), (0 : ℝ)), ((3 : ℝ), (4 : ℝ))] : List (ℝ × ℝ)).getD 0 (0, 0))) ∧
      distance_matrix ([] : List (ℝ × ℝ)) = [] ∧
      distance_matrix_with euclidean_distance [((0 : ℝ), (0 : ℝ)), ((3 : ℝ), (4 : ℝ))]
        = distance_matrix_with euclidean_distance
            [((0 : ℝ), (0 : ℝ)), ((3 : ℝ), (4 : ℝ))]) :=
  ⟨by decide, fun _ _ _ _ => rfl,
    claim_C4 [((0 : ℝ), (0 : ℝ)), ((3 : ℝ), (4 : ℝ))] 0 1 1 euclidean_distance
      euclidean_distance (by decide) (fun _ _ _ _ => rfl)⟩

theorem read_tsp_go_no_marker :
    ∀ (lines : List String) (acc : List (ℤ × ℚ × ℚ)),
      (∀ line ∈ lines, startsWithChars line.data ("NODE_COORD_SECTION".data) = false) →
      read_tsp_go lines false acc = .ok acc := by
  intro lines
  induction lines with
  | nil => intro acc _; rfl
  | cons line rest ih =>
    intro acc hm
    rw [read_tsp_go]
    rw [if_neg (by rw [hm line (List.mem_cons_self line rest)]; exact Bool.false_ne_true)]
    by_cases he : startsWithChars line.data ("EOF".data) = true
    · rw [if_pos he]
    · rw [if_neg he, if_neg Bool.false_ne_true]
      exact ih acc (fun l hl => hm l (List.mem_cons_of_mem line hl))

/-- C7 counterexample: the claim that parsing fails on malformed input is
false for two of the three malformations.  A file with no
`NODE_COORD_SECTION` marker parses successfully to the empty city set (no
error is raised), and a file with two coordinate lines sharing the id `1`
parses successfully, silently keeping only the second line's coordinates. -/
theorem claim_C7_counterexample :
    read_tsp ["1 0.0 0.0", "EOF"] = .ok [] ∧
    read_tsp ["NODE_COORD_SECTION", "1 5 6", "1 7 8", "EOF"] = .ok [(1, 7, 8)] :=
  ⟨rfl, rfl⟩

/-- C7 amended: a non-numeric coordinate field inside the section does make
`read_tsp` fail (with a `ValueError`); but when no line carries the
`NODE_COORD_SECTION` marker, `read_tsp` silently returns the empty city set
instead of failing, and duplicate city ids are silently resolved by keeping
the last coordinate line for the id. -/
theorem claim_C7_amended (lines : List String)
    (hm : ∀ line ∈ lines, startsWithChars line.data ("NODE_COORD_SECTION".data) = false) :
    read_tsp lines = .ok [] ∧
    read_tsp ["NODE_COORD_SECTION", "1 abc 2.0", "EOF"] = .error ("ValueError") ∧
    read_tsp ["NODE_COORD_SECTION", "1 5 6", "1 7 8", "EOF"] = .ok [(1, 7, 8)] :=
  ⟨read_tsp_go_no_marker lines [] hm, rfl, rfl⟩

theorem claim_C7_amended_witness :
    (∀ line ∈ (["1 0.0 0.0"] : List String),
      startsWithChars line.data ("NODE_COORD_SECTION".data) = false) ∧
    (read_tsp ["1 0.0 0.0"] = .ok [] ∧
      read_tsp ["NODE_COORD_SECTION", "1 abc 2.0", "EOF"] = .error ("ValueError") ∧
      read_tsp ["NODE_COORD_SECTION", "1 5 6", "1 7 8", "EOF"] = .ok [(1, 7, 8)]) :=
  ⟨by decide, claim_C7_amended ["1 0.0 0.0"] (by decide)⟩

/-- C8 counterexample: on a zero-city instance (every `random_solution` draw
is the empty list, since `list(range(1, 0 + 1))` is empty) the program does
not fail with a dedicated invalid-instance error before searching: both
hill-climbing engines are entered and then die with an `IndexError` raised
inside `route_length` on the empty tour, which is not an
`InvalidInstanceError`. -/
theorem claim_C8_counterexample :
    tsp_hcs.hill_climbing (fun _ _ => (0 : ℚ)) (fun _ => []) 1 10
      = .error ("IndexError") ∧
    tsp.hill_climbing (fun _ _ => (0 : ℚ)) (fun _ => []) 1 10
      = .error ("IndexError") ∧
    ("IndexError" : String) ≠ "InvalidInstanceError" :=
  ⟨rfl, rfl, by decide⟩

/-- C8 amended: for every zero-city instance (all draws empty) and every
iteration budget of at least 1, both hill-climbing engines proceed into the
search and fail there with an `IndexError` (the empty tour's `sol[-1]`
access in `route_length`); there is no InvalidInstanceError guard. -/
theorem claim_C8_amended (d : ℕ → ℕ → ℚ) (draws : ℕ → List ℕ) (k r : ℕ)
    (hdraws : ∀ t, draws t = []) (hk : 1 ≤ k) :
    tsp_hcs.hill_climbing d draws k r = .error ("IndexError") ∧
    tsp.hill_climbing d draws k r = .error ("IndexError") := by
  constructor
  · simp only [tsp_hcs.hill_climbing, hdraws 0, route_length_nil]
  · obtain ⟨k', rfl⟩ : ∃ k', k = k' + 1 := ⟨k - 1, by omega⟩
    simp only [tsp.hill_climbing, List.range_succ_eq_map, tsp.tsp_loop, tsp.tsp_iter,
      hdraws 0, route_length_nil]

theorem claim_C8_amended_witness :
    (∀ t : ℕ, ((fun _ : ℕ => ([] : List ℕ)) t) = []) ∧ 1 ≤ 2 ∧
    (tsp_hcs.hill_climbing (fun _ _ => (0 : ℚ)) (fun _ => []) 2 10
        = .error ("IndexError") ∧
      tsp.hill_climbing (fun _ _ => (0 : ℚ)) (fun _ => []) 2 10
        = .error ("IndexError")) :=
  ⟨fun _ => rfl, by decide,
    claim_C8_amended (fun _ _ => (0 : ℚ)) (fun _ => []) 2 10 (fun _ => rfl) (by decide)⟩

/-- C9: the code violates the in-bounds requirement on a single-city
instance.  Neighbor generation on the one-city tour `[1]` does yield the
empty set, but `get_best_neighbor` then evaluates `neighbors[0]` on that
empty list — an out-of-range index (`IndexError`) — so the inner-loop
hill-climbing engine crashes on its first iteration instead of staying within
bounds. -/
theorem claim_C9 :
    get_neighbors [1] = [] ∧
    get_best_neighbor [] (fun _ _ => (0 : ℚ)) = .error ("IndexError") ∧
    tsp_hcs.hill_climbing (fun _ _ => (0 : ℚ)) (fun _ => [1]) 1 10
      = .error ("IndexError") :=
  ⟨rfl, rfl, rfl⟩
